import Mathlib

/-!
Verification development for the incremental segment-resolution-and-synchronization
engine of the SD-Prompts-Assistant web application.

The definitions below are a shallow embedding of the TypeScript source:
strings are modelled as `List Char`, the session cache (a JS `Map` keyed by
literal segment text) as a function `Str → Option Tag`, and the asynchronous
resolution pass as explicit phase functions (`startPass`, `applyProgress`,
`commitFinal`, `commitError`) over an explicit engine state.
-/

set_option linter.unusedVariables false

abbrev Str := List Char

/-- The character `{`, written via its code point. -/
def lbraceChar : Char := Char.ofNat 123

/-- The character `}`, written via its code point. -/
def rbraceChar : Char := Char.ofNat 125

/-- Delimiter characters of the segmenter: ASCII comma, CJK comma, newline
(`text.split(/,|，|\n/)` in `splitInputToSegments`). -/
def isDelim (c : Char) : Bool := c = ',' || c = '，' || c = '\n'

/-- Whitespace recognised by JavaScript `String.prototype.trim` (the subset
relevant here: ASCII blanks, NBSP, ideographic space, BOM). -/
def isSpaceChar (c : Char) : Bool :=
  c = ' ' || c = '\t' || c = '\n' || c = '\r' || c = Char.ofNat 11 ||
  c = Char.ofNat 12 || c = Char.ofNat 160 || c = Char.ofNat 0x3000 ||
  c = Char.ofNat 0xFEFF

/-- Leading-whitespace removal (half of JS `trim`). -/
def trimLeft (s : Str) : Str := s.dropWhile isSpaceChar

/-- Trailing-whitespace removal (half of JS `trim`). -/
def trimRight (s : Str) : Str := (s.reverse.dropWhile isSpaceChar).reverse

/-- JS `String.prototype.trim`. -/
def trim (s : Str) : Str := trimRight (trimLeft s)

/-- JS `text.split(/,|，|\n/)`: split at every single delimiter character,
keeping empty pieces (adjacent delimiters produce empty pieces). -/
def splitOnDelims : Str → List Str
  | [] => [[]]
  | c :: cs =>
    if isDelim c then [] :: splitOnDelims cs
    else
      match splitOnDelims cs with
      | [] => [[c]]
      | piece :: rest => (c :: piece) :: rest

/-- `splitInputToSegments` from `AIExpansionModal.tsx`:
`text.split(/,|，|\n/).map(s => s.trim()).filter(s => s.length > 0)`. -/
def splitInputToSegments (text : Str) : List Str :=
  ((splitOnDelims text).map trim).filter (fun s => !s.isEmpty)

/-- `SyntaxType` enum from `types.ts`. -/
inductive SyntaxType
  | NORMAL
  | WEIGHTED
  | DYNAMIC
  | LORA
deriving DecidableEq, Repr

/-- `detectSyntax` as in `AIExpansionModal.tsx` (no trimming; it is applied to
already-trimmed segments there). -/
def detectSyntaxModal (text : Str) : SyntaxType :=
  if [ '<' ].isPrefixOf text && [ '>' ].isSuffixOf text then .LORA
  else if [lbraceChar].isPrefixOf text && [rbraceChar].isSuffixOf text then .DYNAMIC
  else if ([ '(' ].isPrefixOf text && [ ')' ].isSuffixOf text) ||
          ([ '[' ].isPrefixOf text && [ ']' ].isSuffixOf text) then .WEIGHTED
  else .NORMAL

/-- `detectSyntax` as in `geminiService.ts` (`const t = text.trim();` then the
same first-match rules). -/
def detectSyntaxSvc (text : Str) : SyntaxType :=
  let t := trim text
  if [ '<' ].isPrefixOf t && [ '>' ].isSuffixOf t then .LORA
  else if [lbraceChar].isPrefixOf t && [rbraceChar].isSuffixOf t then .DYNAMIC
  else if ([ '(' ].isPrefixOf t && [ ')' ].isSuffixOf t) ||
          ([ '[' ].isPrefixOf t && [ ']' ].isSuffixOf t) then .WEIGHTED
  else .NORMAL

/-- The Syntax Classifier rules as the spec words them: first match wins, and
"wrapping means exact first/last character match on the trimmed string". -/
def specDetectSyntax (text : Str) : SyntaxType :=
  let t := trim text
  if (t.head? == some '<') && (t.getLast? == some '>') then .LORA
  else if (t.head? == some lbraceChar) && (t.getLast? == some rbraceChar) then .DYNAMIC
  else if ((t.head? == some '(') && (t.getLast? == some ')')) ||
          ((t.head? == some '[') && (t.getLast? == some ']')) then .WEIGHTED
  else .NORMAL

theorem singleton_isPrefixOf_eq (c : Char) (l : Str) :
    [c].isPrefixOf l = (l.head? == some c) := by
  cases l with
  | nil => rfl
  | cons a t =>
    show (c == a && List.isPrefixOf [] t) = ((some a : Option Char) == some c)
    simp only [List.isPrefixOf, Bool.and_true]
    by_cases h : a = c
    · subst h; simp
    · have h1 : (c == a) = false := beq_eq_false_iff_ne.mpr (Ne.symm h)
      have h2 : ((some a : Option Char) == some c) = false :=
        beq_eq_false_iff_ne.mpr (by simp [h])
      rw [h1, h2]

theorem singleton_isSuffixOf_eq (c : Char) (l : Str) :
    [c].isSuffixOf l = (l.getLast? == some c) := by
  show [c].reverse.isPrefixOf l.reverse = _
  have : [c].reverse = [c] := rfl
  rw [this, singleton_isPrefixOf_eq, List.head?_reverse]

/-! ## External Resolution Service adapter (`geminiService.ts`) -/

/-- One element of the AI response array. All keys are optional; both the
minified keys (`en`/`cn`/`cat`) and the legacy keys are modelled, matching the
`item.en || item.englishText || segment` access chains. -/
structure RespItem where
  en : Option Str
  englishTextKey : Option Str
  cn : Option Str
  translationKey : Option Str
  cat : Option Str
  categoryKey : Option Str
deriving DecidableEq, Repr

/-- The empty object `{}` used for missing response elements. -/
def emptyItem : RespItem := ⟨none, none, none, none, none, none⟩

/-- Shapes the raw AI response value can take, as discriminated by
`normalizeTags`: an object with a `tags` array, a bare array, a lone object,
or anything else (treated as an empty result list). Array elements are
`Option` so that falsy elements fall back to `{}` (`resultList[index] || {}`). -/
inductive AIResult
  | withTags (tags : List (Option RespItem))
  | bareArray (elems : List (Option RespItem))
  | loneObject (o : RespItem)
  | malformed
deriving DecidableEq, Repr

/-- The `resultList` selection at the top of `normalizeTags`. -/
def extractList : AIResult → List (Option RespItem)
  | .withTags ts => ts
  | .bareArray ts => ts
  | .loneObject o => [some o]
  | .malformed => []

/-- The catch-all "unclassified" category literal `'其他'`. -/
def otherCat : Str := "其他".data

/-- JS `a || b` for an optional string field: missing or empty (falsy) strings
fall through to the fallback. -/
def jsOr (o : Option Str) (fallback : Str) : Str :=
  match o with
  | some s => if s.isEmpty then fallback else s
  | none => fallback

/-- The per-tag record produced by `normalizeTags`. -/
structure NormTag where
  originalText : Str
  englishText : Str
  translation : Str
  category : Str
  syntaxType : SyntaxType
  raw : Str
deriving DecidableEq, Repr

/-- Body of the `originalSegments.map((segment, index) => ...)` callback in
`normalizeTags`. -/
def normalizeOne (resultList : List (Option RespItem)) (index : Nat) (segment : Str) :
    NormTag :=
  let item := (resultList.getD index none).getD emptyItem
  { originalText := segment
    englishText := jsOr item.en (jsOr item.englishTextKey segment)
    translation := jsOr item.cn (jsOr item.translationKey segment)
    category := jsOr item.cat (jsOr item.categoryKey otherCat)
    syntaxType := detectSyntaxSvc segment
    raw := segment }

/-- Index-threaded map over the original segments. -/
def normalizeGo (resultList : List (Option RespItem)) : List Str → Nat → List NormTag
  | [], _ => []
  | seg :: rest, i => normalizeOne resultList i seg :: normalizeGo resultList rest (i + 1)

/-- `normalizeTags` from `geminiService.ts`. -/
def normalizeTags (aiResult : AIResult) (originalSegments : List Str) : List NormTag :=
  normalizeGo (extractList aiResult) originalSegments 0

theorem normalizeGo_length (rl : List (Option RespItem)) (segs : List Str) (i : Nat) :
    (normalizeGo rl segs i).length = segs.length := by
  induction segs generalizing i with
  | nil => rfl
  | cons s rest ih => simp [normalizeGo, ih]

theorem normalizeGo_get? (rl : List (Option RespItem)) (segs : List Str) (i j : Nat) :
    (normalizeGo rl segs i).get? j = (segs.get? j).map (fun s => normalizeOne rl (i + j) s) := by
  induction segs generalizing i j with
  | nil => simp [normalizeGo]
  | cons s rest ih =>
    cases j with
    | zero => simp [normalizeGo]
    | succ j =>
      show (normalizeGo rl rest (i + 1)).get? j =
        (rest.get? j).map (fun s => normalizeOne rl (i + (j + 1)) s)
      rw [ih]
      have hij : i + 1 + j = i + (j + 1) := by omega
      rw [hij]

theorem getD_none_of_le {α : Type} (l : List (Option α)) (i : Nat) (h : l.length ≤ i) :
    l.getD i none = none := by
  induction l generalizing i with
  | nil => simp [List.getD]
  | cons a t ih =>
    cases i with
    | zero => simp at h
    | succ i =>
      rw [List.getD_cons_succ]
      exact ih i (by simp at h; omega)

theorem normalizeGo_map_raw (rl : List (Option RespItem)) (segs : List Str) (i : Nat) :
    (normalizeGo rl segs i).map (fun nt => nt.raw) = segs := by
  induction segs generalizing i with
  | nil => rfl
  | cons s rest ih => simp [normalizeGo, normalizeOne, ih]

theorem normalizeGo_map_orig (rl : List (Option RespItem)) (segs : List Str) (i : Nat) :
    (normalizeGo rl segs i).map (fun nt => nt.originalText) = segs := by
  induction segs generalizing i with
  | nil => rfl
  | cons s rest ih => simp [normalizeGo, normalizeOne, ih]

theorem normalizeGo_map_syntax (rl : List (Option RespItem)) (segs : List Str) (i : Nat) :
    (normalizeGo rl segs i).map (fun nt => nt.syntaxType) = segs.map detectSyntaxSvc := by
  induction segs generalizing i with
  | nil => rfl
  | cons s rest ih => simp [normalizeGo, normalizeOne, ih]

/-- Claim C8: the Syntax Classifier applies its rules in order with first match
winning, where wrapping means exact first/last character match on the trimmed
string (the code's `startsWith`/`endsWith` checks coincide with the spec's
head/last characterization, and the modal-local and service-local classifiers
agree); concretely, `"1girl, (masterpiece:1.2), <lora:x:0.8>"` segments into 3
segments classified Normal, Weighted and LoRA-style. -/
theorem c8_syntax_classifier :
    (∀ s : Str, detectSyntaxSvc s = specDetectSyntax s) ∧
    (∀ s : Str, detectSyntaxSvc s = detectSyntaxModal (trim s)) ∧
    splitInputToSegments ("1girl, (masterpiece:1.2), <lora:x:0.8>".data) =
      ["1girl".data, "(masterpiece:1.2)".data, "<lora:x:0.8>".data] ∧
    (splitInputToSegments ("1girl, (masterpiece:1.2), <lora:x:0.8>".data)).map
        detectSyntaxModal = [SyntaxType.NORMAL, SyntaxType.WEIGHTED, SyntaxType.LORA] := by
  refine ⟨fun s => ?_, fun s => rfl, by decide, by decide⟩
  unfold detectSyntaxSvc specDetectSyntax
  simp only [singleton_isPrefixOf_eq, singleton_isSuffixOf_eq]

/-- Claim C6: a response array shorter than the request (or with missing
elements) still yields a normalized list of exactly the request's length in
request order, and every entry past the end of the response array carries the
catch-all fallback category `'其他'` (its text fields falling back to the
literal segment). -/
theorem c6_malformed_response_resilience :
    ∀ (r : AIResult) (segs : List Str),
      (normalizeTags r segs).length = segs.length ∧
      (∀ i, i < segs.length → (extractList r).length ≤ i →
        ∃ seg nt, segs.get? i = some seg ∧
          (normalizeTags r segs).get? i = some nt ∧
          nt.category = otherCat ∧ nt.raw = seg ∧
          nt.englishText = seg ∧ nt.translation = seg) := by
  intro r segs
  refine ⟨normalizeGo_length _ _ _, ?_⟩
  intro i hi hlen
  obtain ⟨seg, hseg⟩ : ∃ seg, segs.get? i = some seg := by
    rw [List.get?_eq_get hi]; exact ⟨_, rfl⟩
  have hnone : (extractList r)[i]? = none := List.getElem?_eq_none hlen
  refine ⟨seg, normalizeOne (extractList r) (0 + i) seg, hseg, ?_, ?_, ?_, ?_, ?_⟩
  · rw [normalizeTags, normalizeGo_get?, hseg]; rfl
  all_goals
    simp [normalizeOne, List.getD, hnone, emptyItem, jsOr]

/-- Witness for C6 at a concrete short response. -/
theorem c6_malformed_response_resilience_witness :
    (1 : Nat) < 2 ∧ (extractList (AIResult.withTags [])).length ≤ 1 ∧
    ∃ seg nt, (["a".data, "b".data] : List Str).get? 1 = some seg ∧
      (normalizeTags (AIResult.withTags []) ["a".data, "b".data]).get? 1 = some nt ∧
      nt.category = otherCat ∧ nt.raw = seg ∧
      nt.englishText = seg ∧ nt.translation = seg :=
  ⟨by decide, by decide,
   (c6_malformed_response_resilience (AIResult.withTags []) ["a".data, "b".data]).2
     1 (by decide) (by decide)⟩

/-- Claim C10: for every request list and every service response value, each
normalized entry's `raw` and `originalText` equal the literal input segment at
that index and `syntaxType` equals the locally detected syntax of that segment
— independent of the response content. -/
theorem c10_local_fields_response_independent :
    ∀ (r : AIResult) (segs : List Str),
      (normalizeTags r segs).map (fun nt => nt.raw) = segs ∧
      (normalizeTags r segs).map (fun nt => nt.originalText) = segs ∧
      (normalizeTags r segs).map (fun nt => nt.syntaxType) = segs.map detectSyntaxSvc :=
  fun r segs =>
    ⟨normalizeGo_map_raw _ _ _, normalizeGo_map_orig _ _ _, normalizeGo_map_syntax _ _ _⟩

/-! ## Persistent Dictionary (`dictionaryService.ts`) -/

/-- `DictionaryEntry` from `types.ts`. -/
structure DictEntry where
  translation : Str
  category : Str
  syntaxType : Option SyntaxType
deriving DecidableEq, Repr

/-- A string-keyed map, modelling a JS object/`Map` used purely through
key lookup and key update. -/
def DictMap : Type := Str → Option DictEntry

/-- Point update of a dictionary map. -/
def dictSet (d : DictMap) (k : Str) (v : DictEntry) : DictMap :=
  fun k' => if k' = k then some v else d k'

/-- ASCII lowercasing, as JS `toLowerCase` behaves on the keys in play. -/
def lowerStr (s : Str) : Str := s.map Char.toLower

/-- The key normalization used throughout `dictionaryService.ts`:
`text.toLowerCase().trim()`. -/
def normKey (s : Str) : Str := trim (lowerStr s)

/-- `dictionaryService.lookup`: case-insensitive lookup. -/
def dictLookup (d : DictMap) (text : Str) : Option DictEntry :=
  d (normKey text)

/-- `PromptTag` from `types.ts` (without the transient `id`; the optional
boolean fields default to `false`, matching JS `undefined` falsiness). -/
structure Tag where
  raw : Str
  originalText : Str
  englishText : Str
  translation : Str
  category : Str
  syntaxType : SyntaxType
  disabled : Bool := false
  isRefreshing : Bool := false
deriving DecidableEq, Repr

/-- The write step shared by `learn`: replace the entry at `normalized`
unless an entry with the same category and translation is already present. -/
def dictLearnWrite (d : DictMap) (normalized : Str) (entry : DictEntry) : DictMap :=
  match d normalized with
  | some ex =>
    if ex.category = entry.category ∧ ex.translation = entry.translation then d
    else dictSet d normalized entry
  | none => dictSet d normalized entry

/-- `dictionaryService.learn(tag)`: learns a single tag, skipping missing
English text, the catch-all category, and seed keys; an identical existing
entry is left alone. -/
def dictLearn (seed : DictMap) (d : DictMap) (tag : Tag) : DictMap :=
  if tag.englishText.isEmpty then d
  else if tag.category = otherCat then d
  else if (seed (normKey tag.englishText)).isSome then d
  else
    dictLearnWrite d (normKey tag.englishText)
      { translation := tag.translation
        category := tag.category
        syntaxType := if tag.syntaxType = SyntaxType.NORMAL then none
                      else some tag.syntaxType }

/-- One step of `dictionaryService.learnBatch`: learns a tag, skipping the
catch-all category, seed keys, and keys that already have any entry. -/
def dictLearnBatchStep (seed : DictMap) (acc : DictMap) (tag : Tag) : DictMap :=
  if tag.category = otherCat then acc
  else if (seed (normKey tag.englishText)).isSome then acc
  else
    match acc (normKey tag.englishText) with
    | some _ => acc
    | none =>
      dictSet acc (normKey tag.englishText)
        { translation := tag.translation
          category := tag.category
          syntaxType := some tag.syntaxType }

/-- `dictionaryService.learnBatch(tags)`. -/
def dictLearnBatch (seed : DictMap) (d : DictMap) (tags : List Tag) : DictMap :=
  tags.foldl (dictLearnBatchStep seed) d

/-- A sequence of dictionary learn operations. -/
inductive DictOp
  | learnOne (t : Tag)
  | learnMany (ts : List Tag)

def applyDictOp (seed : DictMap) (d : DictMap) : DictOp → DictMap
  | .learnOne t => dictLearn seed d t
  | .learnMany ts => dictLearnBatch seed d ts

def applyDictOps (seed : DictMap) (d : DictMap) (ops : List DictOp) : DictMap :=
  ops.foldl (applyDictOp seed) d

theorem dictLearnWrite_ne (d : DictMap) (n : Str) (e : DictEntry) (k : Str)
    (hne : k ≠ n) : dictLearnWrite d n e k = d k := by
  unfold dictLearnWrite
  cases hd : d n with
  | some ex =>
    show (if ex.category = e.category ∧ ex.translation = e.translation
          then d else dictSet d n e) k = d k
    by_cases h4 : ex.category = e.category ∧ ex.translation = e.translation
    · rw [if_pos h4]
    · rw [if_neg h4]; simp [dictSet, hne]
  | none =>
    show dictSet d n e k = d k
    simp [dictSet, hne]

theorem dictLearn_seed_stable (seed d : DictMap) (t : Tag) (k : Str)
    (hk : (seed k).isSome) : dictLearn seed d t k = d k := by
  unfold dictLearn
  by_cases h1 : t.englishText.isEmpty = true
  · rw [if_pos h1]
  rw [if_neg h1]
  by_cases h2 : t.category = otherCat
  · rw [if_pos h2]
  rw [if_neg h2]
  by_cases h3 : (seed (normKey t.englishText)).isSome = true
  · rw [if_pos h3]
  rw [if_neg h3]
  exact dictLearnWrite_ne _ _ _ _ (fun he => h3 (he ▸ hk))

theorem dictLearnBatchStep_seed_stable (seed d : DictMap) (t : Tag) (k : Str)
    (hk : (seed k).isSome) : dictLearnBatchStep seed d t k = d k := by
  unfold dictLearnBatchStep
  by_cases h2 : t.category = otherCat
  · rw [if_pos h2]
  rw [if_neg h2]
  by_cases h3 : (seed (normKey t.englishText)).isSome = true
  · rw [if_pos h3]
  rw [if_neg h3]
  have hne : k ≠ normKey t.englishText := fun he => h3 (he ▸ hk)
  cases hd : d (normKey t.englishText) with
  | some ex => rfl
  | none => simp [dictSet, hne]

theorem dictLearn_write_only (seed d : DictMap) (t : Tag) (k : Str)
    (h : dictLearn seed d t k ≠ d k) :
    (seed k).isSome = false ∧ t.category ≠ otherCat ∧ k = normKey t.englishText := by
  unfold dictLearn at h
  by_cases h1 : t.englishText.isEmpty = true
  · rw [if_pos h1] at h; exact absurd rfl h
  rw [if_neg h1] at h
  by_cases h2 : t.category = otherCat
  · rw [if_pos h2] at h; exact absurd rfl h
  rw [if_neg h2] at h
  by_cases h3 : (seed (normKey t.englishText)).isSome = true
  · rw [if_pos h3] at h; exact absurd rfl h
  rw [if_neg h3] at h
  by_cases hk : k = normKey t.englishText
  · subst hk; exact ⟨by simpa using h3, h2, rfl⟩
  · exact absurd (dictLearnWrite_ne _ _ _ _ hk) h

theorem dictLearnBatchStep_write_only (seed d : DictMap) (t : Tag) (k : Str)
    (h : dictLearnBatchStep seed d t k ≠ d k) :
    (seed k).isSome = false ∧ t.category ≠ otherCat ∧ k = normKey t.englishText := by
  unfold dictLearnBatchStep at h
  by_cases h2 : t.category = otherCat
  · rw [if_pos h2] at h; exact absurd rfl h
  rw [if_neg h2] at h
  by_cases h3 : (seed (normKey t.englishText)).isSome = true
  · rw [if_pos h3] at h; exact absurd rfl h
  rw [if_neg h3] at h
  by_cases hk : k = normKey t.englishText
  · subst hk; exact ⟨by simpa using h3, h2, rfl⟩
  · exfalso
    apply h
    cases hd : d (normKey t.englishText) with
    | some ex => rfl
    | none =>
      show dictSet d (normKey t.englishText) _ k = d k
      simp [dictSet, hk]

theorem dictLearnBatch_write_only (seed : DictMap) (ts : List Tag) :
    ∀ (d : DictMap) (k : Str), dictLearnBatch seed d ts k ≠ d k →
      (seed k).isSome = false ∧
      ∃ t ∈ ts, t.category ≠ otherCat ∧ normKey t.englishText = k := by
  induction ts with
  | nil => intro d k h; exact absurd rfl h
  | cons t rest ih =>
    intro d k h
    have hstep : dictLearnBatch seed d (t :: rest) =
        dictLearnBatch seed (dictLearnBatchStep seed d t) rest := rfl
    rw [hstep] at h
    by_cases hd1 : dictLearnBatch seed (dictLearnBatchStep seed d t) rest k =
        (dictLearnBatchStep seed d t) k
    · rw [hd1] at h
      obtain ⟨hs, hc, hk⟩ := dictLearnBatchStep_write_only seed d t k h
      exact ⟨hs, t, List.mem_cons_self _ _, hc, hk.symm⟩
    · obtain ⟨hs, t', ht', hc, hk⟩ := ih (dictLearnBatchStep seed d t) k hd1
      exact ⟨hs, t', List.mem_cons_of_mem _ ht', hc, hk⟩

theorem dictLearnBatch_seed_stable (seed : DictMap) (ts : List Tag) :
    ∀ (d : DictMap) (k : Str), (seed k).isSome →
      dictLearnBatch seed d ts k = d k := by
  induction ts with
  | nil => intro d k hk; rfl
  | cons t rest ih =>
    intro d k hk
    have hstep : dictLearnBatch seed d (t :: rest) =
        dictLearnBatch seed (dictLearnBatchStep seed d t) rest := rfl
    rw [hstep, ih _ _ hk, dictLearnBatchStep_seed_stable seed d t k hk]

theorem applyDictOps_seed_stable (seed : DictMap) (ops : List DictOp) :
    ∀ (d : DictMap) (k : Str), (seed k).isSome →
      applyDictOps seed d ops k = d k := by
  induction ops with
  | nil => intro d k hk; rfl
  | cons op rest ih =>
    intro d k hk
    have hstep : applyDictOps seed d (op :: rest) =
        applyDictOps seed (applyDictOp seed d op) rest := rfl
    rw [hstep, ih _ _ hk]
    cases op with
    | learnOne t => exact dictLearn_seed_stable seed d t k hk
    | learnMany ts => exact dictLearnBatch_seed_stable seed ts d k hk

/-- Claim C9: the dictionary's learn operations never mutate a seed entry —
a learned entry is written only at a key with no seed entry and only for a
tag whose resolved category is not the catch-all `'其他'` bucket; under every
sequence of `learn`/`learnBatch` calls, lookup of a seed key returns the seed
entry unchanged. -/
theorem c9_dictionary_seed_immutability :
    (∀ (seed d : DictMap) (k : Str) (e : DictEntry) (ops : List DictOp),
        seed k = some e → d k = some e → applyDictOps seed d ops k = some e) ∧
    (∀ (seed d : DictMap) (t : Tag) (k : Str),
        dictLearn seed d t k ≠ d k →
        (seed k).isSome = false ∧ t.category ≠ otherCat ∧ k = normKey t.englishText) ∧
    (∀ (seed d : DictMap) (ts : List Tag) (k : Str),
        dictLearnBatch seed d ts k ≠ d k →
        (seed k).isSome = false ∧
        ∃ t ∈ ts, t.category ≠ otherCat ∧ normKey t.englishText = k) := by
  refine ⟨?_, dictLearn_write_only, fun seed d ts k => dictLearnBatch_write_only seed ts d k⟩
  intro seed d k e ops hseed hd
  rw [applyDictOps_seed_stable seed ops d k (by rw [hseed]; rfl)]
  exact hd

/-- Witness for C9: a concrete seed entry survives a concrete learn sequence. -/
theorem c9_dictionary_seed_immutability_witness :
    (dictSet (fun _ => none) ("1girl".data)
        ⟨"1个女孩".data, "角色特征".data, none⟩) ("1girl".data) =
      some ⟨"1个女孩".data, "角色特征".data, none⟩ ∧
    applyDictOps
        (dictSet (fun _ => none) ("1girl".data) ⟨"1个女孩".data, "角色特征".data, none⟩)
        (dictSet (fun _ => none) ("1girl".data) ⟨"1个女孩".data, "角色特征".data, none⟩)
        [DictOp.learnOne
          { raw := "1girl".data, originalText := "1girl".data,
            englishText := "1girl".data, translation := "一个女孩".data,
            category := "角色特征".data, syntaxType := SyntaxType.NORMAL },
         DictOp.learnMany
          [{ raw := "1girl".data, originalText := "1girl".data,
             englishText := "1GIRL".data, translation := "女孩".data,
             category := "角色特征".data, syntaxType := SyntaxType.NORMAL }]]
        ("1girl".data) =
      some ⟨"1个女孩".data, "角色特征".data, none⟩ :=
  ⟨by decide,
   c9_dictionary_seed_immutability.1 _ _ _ _ _ (by decide) (by decide)⟩

/-! ## Resolver engine (`AIExpansionModal.tsx`) -/

/-- The session resolution cache (`tagCache`): a JS `Map` from literal raw
segment text to parsed tag data, modelled as a lookup function. -/
def Cache : Type := Str → Option Tag

/-- `tagCache.current.set(k, v)`. -/
def cacheSet (c : Cache) (k : Str) (v : Tag) : Cache :=
  fun k' => if k' = k then some v else c k'

/-- Leading open brackets stripped by `cleanTextForLookup`. -/
def isOpenBracket (c : Char) : Bool := c = '(' || c = '[' || c = lbraceChar || c = '<'

/-- Trailing close brackets stripped by `cleanTextForLookup`. -/
def isCloseBracket (c : Char) : Bool := c = ')' || c = ']' || c = rbraceChar || c = '>'

/-- `cleanTextForLookup` from `AIExpansionModal.tsx`: strip the leading run of
open brackets and the trailing run of close brackets, truncate at the first
`':'` (`split(':')[0]`), then trim. -/
def cleanTextForLookup (text : Str) : Str :=
  let c1 := text.dropWhile isOpenBracket
  let c2 := (c1.reverse.dropWhile isCloseBracket).reverse
  let c3 := c2.takeWhile (fun c => !(c = ':'))
  trim c3

/-- The placeholder display value `'...'` of pending tags. -/
def placeholderText : Str := "...".data

/-- The fallback category `'Unknown'` used when a final result is missing. -/
def unknownCat : Str := "Unknown".data

/-- The tag built on a dictionary hit in `processInput` (note the
`dictEntry.translation === coreText ? segment : coreText` choice for
`englishText` and the locally detected syntax). -/
def mkDictTag (segment coreText : Str) (de : DictEntry) : Tag :=
  { originalText := segment
    englishText := if de.translation = coreText then segment else coreText
    translation := de.translation
    category := de.category
    syntaxType := detectSyntaxModal segment
    raw := segment
    disabled := false
    isRefreshing := false }

/-- The pending tag built on a cache and dictionary miss in `processInput`. -/
def mkPendingTag (segment : Str) : Tag :=
  { raw := segment
    originalText := segment
    englishText := segment
    translation := placeholderText
    category := placeholderText
    syntaxType := detectSyntaxModal segment
    disabled := false
    isRefreshing := true }

/-- The synchronous first pass of `processInput` (step 1): resolve each
segment from the cache, else from the dictionary (writing the cache), else
mark it pending and record it as missing. Returns the updated cache, the
published tag list, the missing indices and the missing segments. -/
def firstPass (dict : DictMap) : Cache → List Str → Nat → Cache × List Tag × List Nat × List Str
  | c, [], _ => (c, [], [], [])
  | c, seg :: rest, i =>
    match c seg with
    | some cached =>
      let r := firstPass dict c rest (i + 1)
      (r.1, cached :: r.2.1, r.2.2.1, r.2.2.2)
    | none =>
      match dictLookup dict (cleanTextForLookup seg) with
      | some de =>
        let td := mkDictTag seg (cleanTextForLookup seg) de
        let r := firstPass dict (cacheSet c seg td) rest (i + 1)
        (r.1, td :: r.2.1, r.2.2.1, r.2.2.2)
      | none =>
        let r := firstPass dict c rest (i + 1)
        (r.1, mkPendingTag seg :: r.2.1, i :: r.2.2.1, seg :: r.2.2.2)

/-- One step of first-occurrence deduplication. -/
def dedupStep (acc : List Str) (y : Str) : List Str :=
  if y ∈ acc then acc else acc ++ [y]

/-- `Array.from(new Set(missingSegments))`: deduplicate preserving first
occurrences. -/
def dedupFirst (l : List Str) : List Str :=
  l.foldl dedupStep []

/-- One step of the diff-hygiene loop: if the previous tag was disabled and
its raw text is absent from the current segment set, reset the cached
`disabled` flag of that literal (when a cache entry exists). -/
def hygStep (segs : List Str) (acc : Cache) (pt : Tag) : Cache :=
  if pt.disabled ∧ pt.raw ∉ segs then
    match acc pt.raw with
    | some e => cacheSet acc pt.raw { e with disabled := false }
    | none => acc
  else acc

/-- The diff-hygiene step at the top of `processInput`: for every previously
disabled tag whose raw text is absent from the current segment set, reset the
cached `disabled` flag. -/
def diffHygiene (c : Cache) (prevTags : List Tag) (segs : List Str) : Cache :=
  prevTags.foldl (hygStep segs) c

/-- The state captured by one `processInput` invocation: its input snapshot
(`currentInput`), its segments, its published first-pass tags, and the
missing batch it will send to the service. -/
structure PassCtx where
  snapshot : Str
  rawSegments : List Str
  newTags : List Tag
  missingIndices : List Nat
  uniqueMissing : List Str

/-- The mutable state of the component relevant to the engine: the race-guard
reference `latestInputRef`, the published `tags`, `prevTagsRef`, the session
cache and the dictionary. -/
structure EngineState where
  latestInput : Str
  tags : List Tag
  prevTags : List Tag
  cache : Cache
  dict : DictMap

/-- The synchronous phase of `processInput(currentInput)`: diff hygiene,
first pass, immediate publication, dedup of the missing batch. -/
def startPass (st : EngineState) (currentInput : Str) : EngineState × PassCtx :=
  let segs := splitInputToSegments currentInput
  let c1 := diffHygiene st.cache st.prevTags segs
  if segs.isEmpty then
    ({ st with cache := c1, tags := [], prevTags := [] },
     ⟨currentInput, segs, [], [], []⟩)
  else
    let r := firstPass st.dict c1 segs 0
    ({ st with cache := r.1, tags := r.2.1, prevTags := r.2.1 },
     ⟨currentInput, segs, r.2.1, r.2.2.1, dedupFirst r.2.2.2⟩)

/-- `/[一-龥]/.test(hint)`. -/
def isHintChinese (h : Str) : Bool :=
  h.any (fun c => 0x4e00 ≤ c.toNat && c.toNat ≤ 0x9fa5)

/-- The `transMap` lookup of the `onProgress` callback: the hint for a raw
segment is the last truthy translation paired with it in the batch order. -/
def hintFor (uniqueMissing translations : List Str) (raw : Str) : Option Str :=
  (((uniqueMissing.zip translations).filter (fun p => !p.2.isEmpty)).reverse.find?
    (fun p => decide (p.1 = raw))).map (fun p => p.2)

/-- The per-tag update of `onProgress`: a Chinese hint fills `translation`,
an ASCII hint fills `englishText` (with `translation` reset to the raw text). -/
def applyHint (uniqueMissing translations : List Str) (t : Tag) : Tag :=
  if t.isRefreshing then
    match hintFor uniqueMissing translations t.raw with
    | some h =>
      if isHintChinese h then { t with translation := h }
      else { t with englishText := h, translation := t.raw }
    | none => t
  else t

/-- The `onProgress` callback of `processInput`: drop the update when the
input reference has moved on; otherwise patch the published tags. -/
def applyProgress (st : EngineState) (ctx : PassCtx) (translations : List Str) :
    EngineState :=
  if st.latestInput = ctx.snapshot then
    let updated := st.tags.map (applyHint ctx.uniqueMissing translations)
    { st with tags := updated, prevTags := updated }
  else st

/-- The cache entry written for a final service result (`tagData` in the
`results.forEach` loop: `disabled: false`, no `isRefreshing` key). -/
def resTagData (r : Tag) : Tag := { r with disabled := false, isRefreshing := false }

/-- One step of the final-batch reconciliation loop
(`missingSegmentIndices.forEach`): replace the tag at a missing index from
the cache, or clear its pending state with the `'Unknown'` fallback. -/
def finStep (c : Cache) (segs : List Str) (ts : List Tag) (i : Nat) : List Tag :=
  match c (segs.getD i []) with
  | some cached => ts.set i { cached with isRefreshing := false }
  | none =>
    match ts.get? i with
    | some t => ts.set i { t with isRefreshing := false, category := unknownCat }
    | none => ts

/-- Step 2 of the final-batch reconciliation: rebuild `updatedTags` from the
pass's own `newTags`, replacing each missing index from the cache, or
clearing pending state with the `'Unknown'` fallback category. -/
def finalizeTags (c : Cache) (segs : List Str) (idxs : List Nat) (base : List Tag) :
    List Tag :=
  idxs.foldl (finStep c segs) base

/-- The final-batch completion of `processInput`: cache and learn every
result, then (only if the input reference still matches the snapshot)
publish the reconciled tag list. -/
def commitFinal (seed : DictMap) (st : EngineState) (ctx : PassCtx)
    (results : List Tag) : EngineState :=
  let c2 := results.foldl (fun c r => cacheSet c r.raw (resTagData r)) st.cache
  let d2 := dictLearnBatch seed st.dict (results.map resTagData)
  if st.latestInput = ctx.snapshot then
    let updated := finalizeTags c2 ctx.rawSegments ctx.missingIndices ctx.newTags
    { st with cache := c2, dict := d2, tags := updated, prevTags := updated }
  else { st with cache := c2, dict := d2 }

/-- The `catch` branch of `processInput`: when the service call fails
outright and the input reference still matches, clear every published tag's
pending flag (nothing else is changed; the error is logged, not rethrown). -/
def commitError (st : EngineState) (ctx : PassCtx) : EngineState :=
  if st.latestInput = ctx.snapshot then
    let updated := st.tags.map (fun t => { t with isRefreshing := false })
    { st with tags := updated, prevTags := updated }
  else st

/-- A user text edit: the `useEffect` tracking `input` keeps
`latestInputRef.current` in sync before any pass commits. -/
def editText (st : EngineState) (newInput : Str) : EngineState :=
  { st with latestInput := newInput }

/-! ## Synchronizer: display-language flip (`handleLanguageToggle`) -/

/-- Handling of one delimiter character at the front of a decomposition:
extend an immediately following delimiter run, or open a new one. -/
def splitKDDelim (c : Char) : Str → List Str → List Str
  | [], d :: rest2 => [] :: (c :: d) :: rest2
  | piece, rest => [] :: [c] :: piece :: rest

/-- Prepend one character to a split-with-delimiters decomposition. -/
def splitKDCons (c : Char) : List Str → List Str
  | [] => [[]]
  | piece :: rest =>
    if isDelim c then splitKDDelim c piece rest
    else (c :: piece) :: rest

/-- JS `input.split(/([,，\n]+)/)` with a capturing group: alternating text
and delimiter-run pieces (text pieces may be empty at the ends); runs of
adjacent delimiters form a single captured piece. -/
def splitKD : Str → List Str
  | [] => [[]]
  | c :: cs => splitKDCons c (splitKD cs)

/-- JS `part.match(/^[,，\n]+$/)`: a nonempty run of delimiters. -/
def isDelimRun (p : Str) : Bool := !p.isEmpty && p.all isDelim

/-- The condition under which `handleLanguageToggle` can switch a tag to the
requested display form (`hasTranslation` / `hasEnglish` in the source). -/
def canFlip (nextIsChinese : Bool) (t : Tag) : Bool :=
  if nextIsChinese then !t.translation.isEmpty && !(t.translation = placeholderText)
  else !t.englishText.isEmpty

/-- The target display string for a tag. -/
def targetOf (nextIsChinese : Bool) (t : Tag) : Str :=
  if nextIsChinese then t.translation else t.englishText

/-- The `parts.map(...)` walk of `handleLanguageToggle`, threading the
`tagIndex` counter: delimiter runs and blank pieces are kept and consume no
tag; every other piece consumes one tag and is rewritten to its target string
(preserving surrounding whitespace) when the tag is settled and the target
form is available, pre-filling a cache update keyed by the target string. -/
def flipParts (nextIsChinese : Bool) : List Str → List Tag → List Str × List (Str × Tag)
  | [], _ => ([], [])
  | p :: ps, [] =>
    ((p :: (flipParts nextIsChinese ps []).1), (flipParts nextIsChinese ps []).2)
  | p :: ps, t :: tr =>
    if isDelimRun p ∨ (trim p).isEmpty then
      ((p :: (flipParts nextIsChinese ps (t :: tr)).1),
       (flipParts nextIsChinese ps (t :: tr)).2)
    else if t.isRefreshing then
      ((p :: (flipParts nextIsChinese ps tr).1), (flipParts nextIsChinese ps tr).2)
    else if !canFlip nextIsChinese t then
      ((p :: (flipParts nextIsChinese ps tr).1), (flipParts nextIsChinese ps tr).2)
    else
      (((p.takeWhile isSpaceChar ++ targetOf nextIsChinese t ++
          ((p.dropWhile isSpaceChar).reverse.takeWhile isSpaceChar).reverse) ::
          (flipParts nextIsChinese ps tr).1),
       (targetOf nextIsChinese t, { t with raw := targetOf nextIsChinese t }) ::
         (flipParts nextIsChinese ps tr).2)

/-- `handleLanguageToggle`: rewrite each settled tag's slot in the raw text
to its target display string, pre-populate the session cache under the target
strings, and move the race-guard reference to the rewritten text at once. -/
def handleLanguageToggle (st : EngineState) (isInputChinese : Bool) : EngineState :=
  let nextIsChinese := !isInputChinese
  let r := flipParts nextIsChinese (splitKD st.latestInput) st.tags
  let c2 := r.2.foldl (fun c p => cacheSet c p.1 p.2) st.cache
  { st with cache := c2, latestInput := r.1.flatten }

/-! ## Claims about the race guard and the failure path -/

/-- Claim C1: if the input reference has moved on from a pass's captured
snapshot by the time its asynchronous result arrives — final batch or partial
hint — the pass writes nothing to the published tag list. -/
theorem c1_race_guard_drops_stale_results :
    ∀ (seed : DictMap) (st : EngineState) (ctx : PassCtx) (results : List Tag)
      (translations : List Str),
      st.latestInput ≠ ctx.snapshot →
      (commitFinal seed st ctx results).tags = st.tags ∧
      (commitFinal seed st ctx results).prevTags = st.prevTags ∧
      (applyProgress st ctx translations).tags = st.tags ∧
      (applyProgress st ctx translations).prevTags = st.prevTags := by
  intro seed st ctx results ts h
  unfold commitFinal applyProgress
  rw [if_neg h, if_neg h]
  exact ⟨rfl, rfl, rfl, rfl⟩

/-- A concrete engine state captured for the C1 witness: the input has moved
to `"b"` while the pass snapshot was `"a"`. -/
def c1State : EngineState :=
  { latestInput := "b".data
    tags := [mkPendingTag ("a".data)]
    prevTags := [mkPendingTag ("a".data)]
    cache := fun _ => none
    dict := fun _ => none }

/-- The C1 witness pass context (snapshot `"a"`). -/
def c1Ctx : PassCtx := ⟨"a".data, ["a".data], [mkPendingTag ("a".data)], [0], ["a".data]⟩

/-- A concrete stale result for the C1 witness. -/
def c1Result : Tag :=
  { raw := "a".data, originalText := "a".data, englishText := "a".data,
    translation := "某".data, category := "场景".data, syntaxType := SyntaxType.NORMAL }

/-- Witness for C1 at a concrete stale commit. -/
theorem c1_race_guard_drops_stale_results_witness :
    c1State.latestInput ≠ c1Ctx.snapshot ∧
    (commitFinal (fun _ => none) c1State c1Ctx [c1Result]).tags = c1State.tags ∧
    (applyProgress c1State c1Ctx ["某".data]).tags = c1State.tags :=
  ⟨by decide,
   (c1_race_guard_drops_stale_results (fun _ => none) c1State c1Ctx [c1Result]
      ["某".data] (by decide)).1,
   (c1_race_guard_drops_stale_results (fun _ => none) c1State c1Ctx [c1Result]
      ["某".data] (by decide)).2.2.1⟩

/-- A concrete state with one pending tag, used to settle claim C5. -/
def c5State : EngineState :=
  { latestInput := "foo".data
    tags := [mkPendingTag ("foo".data)]
    prevTags := [mkPendingTag ("foo".data)]
    cache := fun _ => none
    dict := fun _ => none }

/-- The pass context matching `c5State`. -/
def c5Ctx : PassCtx := ⟨"foo".data, ["foo".data], [mkPendingTag ("foo".data)], [0], ["foo".data]⟩

/-- Counterexample to claim C5 as stated: after an outright service failure
the pending tag is cleared to non-pending, but its category is NOT set to any
fallback "unknown" label — it keeps the placeholder `'...'` (the `'Unknown'`
fallback exists only in the success path for missing results). -/
theorem c5_counterexample_category_not_unknown :
    (commitError c5State c5Ctx).tags =
      [{ mkPendingTag ("foo".data) with isRefreshing := false }] ∧
    ({ mkPendingTag ("foo".data) with isRefreshing := false }).category =
      placeholderText ∧
    placeholderText ≠ unknownCat := by
  refine ⟨by decide, by decide, by decide⟩

/-- Claim C5 (amended): if the service call of a pass fails outright while
the input reference still matches the snapshot, every published tag is
cleared to non-pending with all other fields (including its category)
unchanged, and nothing else of the state changes — the failure is recoverable
and is not propagated. -/
theorem c5_service_failure_clears_pending :
    ∀ (st : EngineState) (ctx : PassCtx),
      st.latestInput = ctx.snapshot →
      (commitError st ctx).tags =
        st.tags.map (fun t => { t with isRefreshing := false }) ∧
      (commitError st ctx).cache = st.cache ∧
      (commitError st ctx).dict = st.dict ∧
      (commitError st ctx).latestInput = st.latestInput := by
  intro st ctx h
  unfold commitError
  rw [if_pos h]
  exact ⟨rfl, rfl, rfl, rfl⟩

/-- Witness for the amended C5 at the concrete failing pass. -/
theorem c5_service_failure_clears_pending_witness :
    c5State.latestInput = c5Ctx.snapshot ∧
    (commitError c5State c5Ctx).tags =
      c5State.tags.map (fun t => { t with isRefreshing := false }) :=
  ⟨by decide, (c5_service_failure_clears_pending c5State c5Ctx (by decide)).1⟩

/-! ## Claim C3: cache idempotence -/

theorem cacheSet_isSome (c : Cache) (k : Str) (v : Tag) (s : Str)
    (h : (c s).isSome) : (cacheSet c k v s).isSome := by
  unfold cacheSet
  by_cases hs : s = k
  · rw [if_pos hs]; rfl
  · rw [if_neg hs]; exact h

theorem hygStep_isSome (segs : List Str) (acc : Cache) (pt : Tag) (s : Str)
    (h : (acc s).isSome) : (hygStep segs acc pt s).isSome := by
  unfold hygStep
  by_cases hc : pt.disabled = true ∧ pt.raw ∉ segs
  · rw [if_pos hc]
    cases he : acc pt.raw with
    | some e => exact cacheSet_isSome _ _ _ _ h
    | none => exact h
  · rw [if_neg hc]; exact h

theorem diffHygiene_isSome (prevTags : List Tag) :
    ∀ (c : Cache) (segs : List Str) (s : Str),
      (c s).isSome → (diffHygiene c prevTags segs s).isSome := by
  induction prevTags with
  | nil => intro c segs s h; exact h
  | cons pt rest ih =>
    intro c segs s h
    exact ih (hygStep segs c pt) segs s (hygStep_isSome segs c pt s h)

theorem firstPass_isSome (dict : DictMap) (segs : List Str) :
    ∀ (c : Cache) (i : Nat) (s : Str),
      (c s).isSome → ((firstPass dict c segs i).1 s).isSome := by
  induction segs with
  | nil => intro c i s h; exact h
  | cons seg rest ih =>
    intro c i s h
    unfold firstPass
    cases hc : c seg with
    | some cached => exact ih c (i + 1) s h
    | none =>
      cases hd : dictLookup dict (cleanTextForLookup seg) with
      | some de =>
        exact ih (cacheSet c seg (mkDictTag seg (cleanTextForLookup seg) de)) (i + 1) s
          (cacheSet_isSome _ _ _ _ h)
      | none => exact ih c (i + 1) s h

theorem firstPass_not_missing (dict : DictMap) (segs : List Str) :
    ∀ (c : Cache) (i : Nat) (s : Str),
      (c s).isSome → s ∉ (firstPass dict c segs i).2.2.2 := by
  induction segs with
  | nil => intro c i s h hmem; exact absurd hmem (List.not_mem_nil s)
  | cons seg rest ih =>
    intro c i s h
    unfold firstPass
    cases hc : c seg with
    | some cached => exact ih c (i + 1) s h
    | none =>
      cases hd : dictLookup dict (cleanTextForLookup seg) with
      | some de =>
        exact ih (cacheSet c seg (mkDictTag seg (cleanTextForLookup seg) de)) (i + 1) s
          (cacheSet_isSome _ _ _ _ h)
      | none =>
        intro hmem
        rcases List.mem_cons.mp hmem with he | hm
        · subst he; rw [hc] at h; exact absurd h (by simp)
        · exact ih c (i + 1) s h hm

theorem mem_foldl_dedup {x : Str} (l : List Str) :
    ∀ (acc : List Str), x ∈ l.foldl dedupStep acc → x ∈ acc ∨ x ∈ l := by
  induction l with
  | nil => intro acc h; exact Or.inl h
  | cons y ys ih =>
    intro acc h
    rcases ih _ h with hacc | hl
    · unfold dedupStep at hacc
      by_cases hy : y ∈ acc
      · rw [if_pos hy] at hacc; exact Or.inl hacc
      · rw [if_neg hy] at hacc
        rcases List.mem_append.mp hacc with ha | hb
        · exact Or.inl ha
        · rcases List.mem_singleton.mp hb with rfl
          exact Or.inr (List.mem_cons_self _ _)
    · exact Or.inr (List.mem_cons_of_mem _ hl)

theorem mem_dedupFirst {x : Str} {l : List Str} (h : x ∈ dedupFirst l) : x ∈ l := by
  rcases mem_foldl_dedup l [] h with ha | hl
  · exact absurd ha (List.not_mem_nil x)
  · exact hl

theorem foldl_cacheSet_isSome (ups : List (Str × Tag)) :
    ∀ (c : Cache) (s : Str), (c s).isSome →
      ((ups.foldl (fun c p => cacheSet c p.1 p.2) c) s).isSome := by
  induction ups with
  | nil => intro c s h; exact h
  | cons p rest ih =>
    intro c s h
    exact ih (cacheSet c p.1 p.2) s (cacheSet_isSome _ _ _ _ h)

theorem foldl_resCache_isSome (results : List Tag) :
    ∀ (c : Cache) (s : Str), (c s).isSome →
      ((results.foldl (fun c r => cacheSet c r.raw (resTagData r)) c) s).isSome := by
  induction results with
  | nil => intro c s h; exact h
  | cons r rest ih =>
    intro c s h
    exact ih (cacheSet c r.raw (resTagData r)) s (cacheSet_isSome _ _ _ _ h)

/-- A let-free unfolding of `startPass`, convenient for case analysis. -/
theorem startPass_eq (st : EngineState) (currentInput : Str) :
    startPass st currentInput =
      if (splitInputToSegments currentInput).isEmpty then
        ({ st with
            cache := diffHygiene st.cache st.prevTags (splitInputToSegments currentInput),
            tags := [], prevTags := [] },
         ⟨currentInput, splitInputToSegments currentInput, [], [], []⟩)
      else
        ({ st with
            cache := (firstPass st.dict
              (diffHygiene st.cache st.prevTags (splitInputToSegments currentInput))
              (splitInputToSegments currentInput) 0).1,
            tags := (firstPass st.dict
              (diffHygiene st.cache st.prevTags (splitInputToSegments currentInput))
              (splitInputToSegments currentInput) 0).2.1,
            prevTags := (firstPass st.dict
              (diffHygiene st.cache st.prevTags (splitInputToSegments currentInput))
              (splitInputToSegments currentInput) 0).2.1 },
         ⟨currentInput, splitInputToSegments currentInput,
          (firstPass st.dict
            (diffHygiene st.cache st.prevTags (splitInputToSegments currentInput))
            (splitInputToSegments currentInput) 0).2.1,
          (firstPass st.dict
            (diffHygiene st.cache st.prevTags (splitInputToSegments currentInput))
            (splitInputToSegments currentInput) 0).2.2.1,
          dedupFirst (firstPass st.dict
            (diffHygiene st.cache st.prevTags (splitInputToSegments currentInput))
            (splitInputToSegments currentInput) 0).2.2.2⟩) := rfl

/-- Claim C3: once a literal segment string is present in the Session Cache,
no resolution pass includes it in the batch sent to the External Resolution
Service; and every engine operation (pass start, partial hint, final commit,
failure commit, text edit, language flip) preserves cache membership — so a
cached literal is never service-resolved again in the same session. -/
theorem c3_cache_idempotence :
    (∀ (st : EngineState) (currentInput : Str) (s : Str), (st.cache s).isSome →
        s ∉ (startPass st currentInput).2.uniqueMissing) ∧
    (∀ (st : EngineState) (currentInput : Str) (s : Str), (st.cache s).isSome →
        ((startPass st currentInput).1.cache s).isSome) ∧
    (∀ (seed : DictMap) (st : EngineState) (ctx : PassCtx) (results : List Tag)
        (s : Str), (st.cache s).isSome →
        ((commitFinal seed st ctx results).cache s).isSome) ∧
    (∀ (st : EngineState) (ctx : PassCtx) (translations : List Str),
        (applyProgress st ctx translations).cache = st.cache) ∧
    (∀ (st : EngineState) (ctx : PassCtx), (commitError st ctx).cache = st.cache) ∧
    (∀ (st : EngineState) (newInput : Str), (editText st newInput).cache = st.cache) ∧
    (∀ (st : EngineState) (b : Bool) (s : Str), (st.cache s).isSome →
        ((handleLanguageToggle st b).cache s).isSome) := by
  refine ⟨?_, ?_, ?_, ?_, ?_, ?_, ?_⟩
  · intro st currentInput s h
    rw [startPass_eq]
    by_cases hsegs : (splitInputToSegments currentInput).isEmpty = true
    · rw [if_pos hsegs]; exact List.not_mem_nil s
    · rw [if_neg hsegs]
      intro hmem
      exact firstPass_not_missing st.dict (splitInputToSegments currentInput)
        (diffHygiene st.cache st.prevTags (splitInputToSegments currentInput)) 0 s
        (diffHygiene_isSome st.prevTags st.cache _ s h) (mem_dedupFirst hmem)
  · intro st currentInput s h
    rw [startPass_eq]
    by_cases hsegs : (splitInputToSegments currentInput).isEmpty = true
    · rw [if_pos hsegs]
      exact diffHygiene_isSome st.prevTags st.cache _ s h
    · rw [if_neg hsegs]
      exact firstPass_isSome st.dict _ _ 0 s (diffHygiene_isSome st.prevTags st.cache _ s h)
  · intro seed st ctx results s h
    unfold commitFinal
    by_cases hrace : st.latestInput = ctx.snapshot
    · rw [if_pos hrace]; exact foldl_resCache_isSome results st.cache s h
    · rw [if_neg hrace]; exact foldl_resCache_isSome results st.cache s h
  · intro st ctx translations
    unfold applyProgress
    by_cases hrace : st.latestInput = ctx.snapshot
    · rw [if_pos hrace]
    · rw [if_neg hrace]
  · intro st ctx
    unfold commitError
    by_cases hrace : st.latestInput = ctx.snapshot
    · rw [if_pos hrace]
    · rw [if_neg hrace]
  · intro st newInput; rfl
  · intro st b s h
    exact foldl_cacheSet_isSome _ st.cache s h

/-- A concrete state whose cache already holds `"1girl"`, for the C3 witness. -/
def c3State : EngineState :=
  { latestInput := "1girl, solo".data
    tags := []
    prevTags := []
    cache := cacheSet (fun _ => none) ("1girl".data)
      { raw := "1girl".data, originalText := "1girl".data, englishText := "1girl".data,
        translation := "1个女孩".data, category := "角色特征".data,
        syntaxType := SyntaxType.NORMAL }
    dict := fun _ => none }

/-- Witness for C3: the cached literal `"1girl"` is not in the next pass's
service batch (while the uncached `"solo"` is). -/
theorem c3_cache_idempotence_witness :
    (c3State.cache ("1girl".data)).isSome = true ∧
    ("1girl".data : Str) ∉ (startPass c3State ("1girl, solo".data)).2.uniqueMissing ∧
    (startPass c3State ("1girl, solo".data)).2.uniqueMissing = ["solo".data] :=
  ⟨by decide,
   c3_cache_idempotence.1 c3State ("1girl, solo".data) ("1girl".data) (by decide),
   by decide⟩

/-! ## Claim C4: disable hygiene -/

theorem tag_eta_disabled (e : Tag) (h : e.disabled = false) :
    ({ e with disabled := false } : Tag) = e := by
  cases e
  simp only at h
  subst h
  rfl

theorem hygStep_preserves_cleared (segs : List Str) (acc : Cache) (pt : Tag)
    (k : Str) (e : Tag) (h : acc k = some e) (hd : e.disabled = false) :
    hygStep segs acc pt k = some e := by
  unfold hygStep
  by_cases hc : pt.disabled = true ∧ pt.raw ∉ segs
  · rw [if_pos hc]
    cases hraw : acc pt.raw with
    | some e2 =>
      show cacheSet acc pt.raw { e2 with disabled := false } k = some e
      unfold cacheSet
      by_cases hk : k = pt.raw
      · rw [if_pos hk]
        rw [hk] at h
        rw [h] at hraw
        injection hraw with he
        rw [← he, tag_eta_disabled e hd]
      · rw [if_neg hk]; exact h
    | none => exact h
  · rw [if_neg hc]; exact h

theorem hygStep_value (segs : List Str) (acc : Cache) (pt : Tag) (k : Str) :
    hygStep segs acc pt k = acc k ∨
    ∃ cur, acc k = some cur ∧ hygStep segs acc pt k = some { cur with disabled := false } := by
  unfold hygStep
  by_cases hc : pt.disabled = true ∧ pt.raw ∉ segs
  · rw [if_pos hc]
    cases hraw : acc pt.raw with
    | some e2 =>
      show (cacheSet acc pt.raw { e2 with disabled := false }) k = acc k ∨
        ∃ cur, acc k = some cur ∧
          (cacheSet acc pt.raw { e2 with disabled := false }) k =
            some { cur with disabled := false }
      unfold cacheSet
      by_cases hk : k = pt.raw
      · rw [if_pos hk]
        refine Or.inr ⟨e2, ?_, rfl⟩
        rw [hk]; exact hraw
      · rw [if_neg hk]; exact Or.inl rfl
    | none => exact Or.inl rfl
  · rw [if_neg hc]; exact Or.inl rfl

theorem hygStep_clears (segs : List Str) (acc : Cache) (pt : Tag) (e : Tag)
    (hq : pt.disabled = true ∧ pt.raw ∉ segs) (h : acc pt.raw = some e) :
    hygStep segs acc pt pt.raw = some { e with disabled := false } := by
  unfold hygStep
  rw [if_pos hq]
  cases hraw : acc pt.raw with
  | some e2 =>
    rw [hraw] at h
    injection h with he
    subst he
    show (cacheSet acc pt.raw { e2 with disabled := false }) pt.raw = _
    unfold cacheSet
    rw [if_pos rfl]
  | none => rw [hraw] at h; exact absurd h (by simp)

theorem hygSteps_preserve_two (segs : List Str) (l : List Tag) (k : Str) (e : Tag) :
    ∀ (c : Cache),
      (c k = some e ∨ c k = some { e with disabled := false }) →
      (l.foldl (hygStep segs) c k = some e ∨
       l.foldl (hygStep segs) c k = some { e with disabled := false }) := by
  induction l with
  | nil => intro c h; exact h
  | cons pt rest ih =>
    intro c h
    apply ih
    rcases hygStep_value segs c pt k with hsame | ⟨cur, hcur, hset⟩
    · rw [hsame]; exact h
    · rcases h with h1 | h2
      · rw [h1] at hcur; injection hcur with he
        rw [hset, ← he]
        exact Or.inr rfl
      · rw [h2] at hcur; injection hcur with he
        rw [hset, ← he]
        exact Or.inr rfl

theorem hygSteps_preserve_cleared (segs : List Str) (l : List Tag) (k : Str) (e : Tag)
    (hd : e.disabled = false) :
    ∀ (c : Cache), c k = some e → l.foldl (hygStep segs) c k = some e := by
  induction l with
  | nil => intro c h; exact h
  | cons pt rest ih =>
    intro c h
    exact ih (hygStep segs c pt) (hygStep_preserves_cleared segs c pt k e h hd)

theorem diffHygiene_clears (segs : List Str) (prevTags : List Tag) (c : Cache)
    (pt : Tag) (e : Tag) (hmem : pt ∈ prevTags) (hdis : pt.disabled = true)
    (habs : pt.raw ∉ segs) (hc : c pt.raw = some e) :
    diffHygiene c prevTags segs pt.raw = some { e with disabled := false } := by
  obtain ⟨l1, l2, rfl⟩ := List.append_of_mem hmem
  show (l1 ++ pt :: l2).foldl (hygStep segs) c pt.raw = _
  rw [List.foldl_append, List.foldl_cons]
  have h2 := hygSteps_preserve_two segs l1 pt.raw e c (Or.inl hc)
  have hq : pt.disabled = true ∧ pt.raw ∉ segs := ⟨hdis, habs⟩
  have hafter : hygStep segs (l1.foldl (hygStep segs) c) pt pt.raw =
      some { e with disabled := false } := by
    rcases h2 with h1 | h1
    · exact hygStep_clears segs _ pt e hq h1
    · exact hygStep_clears segs _ pt { e with disabled := false } hq h1
  exact hygSteps_preserve_cleared segs l2 pt.raw { e with disabled := false } rfl _ hafter

theorem firstPass_cache_stable (dict : DictMap) (segs : List Str) :
    ∀ (c : Cache) (i : Nat) (k : Str), k ∉ segs →
      (firstPass dict c segs i).1 k = c k := by
  induction segs with
  | nil => intro c i k hk; rfl
  | cons seg rest ih =>
    intro c i k hk
    have hne : k ≠ seg := fun he => hk (he ▸ List.mem_cons_self seg rest)
    have hrest : k ∉ rest := fun hm => hk (List.mem_cons_of_mem seg hm)
    unfold firstPass
    cases hc : c seg with
    | some cached => exact ih c (i + 1) k hrest
    | none =>
      cases hd : dictLookup dict (cleanTextForLookup seg) with
      | some de =>
        rw [ih (cacheSet c seg (mkDictTag seg (cleanTextForLookup seg) de)) (i + 1) k hrest]
        unfold cacheSet
        rw [if_neg hne]
      | none => exact ih c (i + 1) k hrest

/-- The per-key property "any cache entry there has `disabled = false`". -/
def keyCleared (c : Cache) (k : Str) : Prop :=
  ∀ e, c k = some e → e.disabled = false

theorem cacheSet_keyCleared (c : Cache) (kw : Str) (v : Tag) (k : Str)
    (h : keyCleared c k) (hv : v.disabled = false) :
    keyCleared (cacheSet c kw v) k := by
  intro e he
  unfold cacheSet at he
  by_cases hk : k = kw
  · rw [if_pos hk] at he; injection he with hee; rw [← hee]; exact hv
  · rw [if_neg hk] at he; exact h e he

theorem hygStep_keyCleared (segs : List Str) (acc : Cache) (pt : Tag) (k : Str)
    (h : keyCleared acc k) : keyCleared (hygStep segs acc pt) k := by
  intro e he
  rcases hygStep_value segs acc pt k with hsame | ⟨cur, hcur, hset⟩
  · rw [hsame] at he; exact h e he
  · rw [hset] at he; injection he with hee; rw [← hee]

theorem diffHygiene_keyCleared (prevTags : List Tag) :
    ∀ (c : Cache) (segs : List Str) (k : Str),
      keyCleared c k → keyCleared (diffHygiene c prevTags segs) k := by
  induction prevTags with
  | nil => intro c segs k h; exact h
  | cons pt rest ih =>
    intro c segs k h
    exact ih (hygStep segs c pt) segs k (hygStep_keyCleared segs c pt k h)

theorem firstPass_tag_cleared (dict : DictMap) (segs : List Str) :
    ∀ (c : Cache) (i : Nat) (j : Nat) (s : Str),
      segs.get? j = some s → keyCleared c s →
      ∃ tg, (firstPass dict c segs i).2.1.get? j = some tg ∧ tg.disabled = false := by
  induction segs with
  | nil => intro c i j s hj hc; simp at hj
  | cons seg rest ih =>
    intro c i j s hj hc
    unfold firstPass
    cases hcs : c seg with
    | some cached =>
      cases j with
      | zero =>
        injection hj with hjs
        subst hjs
        exact ⟨cached, rfl, hc cached hcs⟩
      | succ j => exact ih c (i + 1) j s hj hc
    | none =>
      cases hd : dictLookup dict (cleanTextForLookup seg) with
      | some de =>
        cases j with
        | zero =>
          injection hj with hjs
          subst hjs
          exact ⟨mkDictTag seg (cleanTextForLookup seg) de, rfl, rfl⟩
        | succ j =>
          apply ih (cacheSet c seg (mkDictTag seg (cleanTextForLookup seg) de)) (i + 1) j s hj
          exact cacheSet_keyCleared c seg _ s hc rfl
      | none =>
        cases j with
        | zero =>
          injection hj with hjs
          subst hjs
          exact ⟨mkPendingTag seg, rfl, rfl⟩
        | succ j => exact ih c (i + 1) j s hj hc

/-- Claim C4: at the start of a resolution pass, every previously disabled
tag whose literal raw text is absent from the new segment set has its cache
entry's `disabled` flag reset to false; consequently a later pass that sees
the same literal again produces a tag with `disabled = false`. -/
theorem c4_disable_hygiene :
    ∀ (st : EngineState) (currentInput : Str) (pt : Tag) (e : Tag),
      pt ∈ st.prevTags → pt.disabled = true →
      pt.raw ∉ splitInputToSegments currentInput →
      st.cache pt.raw = some e →
      (startPass st currentInput).1.cache pt.raw = some { e with disabled := false } ∧
      (∀ (input2 : Str) (j : Nat),
        (splitInputToSegments input2).get? j = some pt.raw →
        ∃ tg, (startPass (startPass st currentInput).1 input2).1.tags.get? j = some tg ∧
          tg.disabled = false) := by
  intro st currentInput pt e hmem hdis habs hc
  have hclear : (startPass st currentInput).1.cache pt.raw =
      some { e with disabled := false } := by
    rw [startPass_eq]
    by_cases hsegs : (splitInputToSegments currentInput).isEmpty = true
    · rw [if_pos hsegs]
      exact diffHygiene_clears (splitInputToSegments currentInput) st.prevTags st.cache
        pt e hmem hdis habs hc
    · rw [if_neg hsegs]
      show (firstPass st.dict
        (diffHygiene st.cache st.prevTags (splitInputToSegments currentInput))
        (splitInputToSegments currentInput) 0).1 pt.raw = _
      rw [firstPass_cache_stable st.dict (splitInputToSegments currentInput) _ 0
        pt.raw habs]
      exact diffHygiene_clears (splitInputToSegments currentInput) st.prevTags st.cache
        pt e hmem hdis habs hc
  refine ⟨hclear, ?_⟩
  intro input2 j hj
  have hkc : keyCleared (startPass st currentInput).1.cache pt.raw := by
    intro e' he'
    rw [hclear] at he'
    injection he' with hee
    rw [← hee]
  rw [startPass_eq]
  by_cases hsegs2 : (splitInputToSegments input2).isEmpty = true
  · exfalso
    rw [List.isEmpty_iff.mp hsegs2] at hj
    simp at hj
  · rw [if_neg hsegs2]
    show ∃ tg, (firstPass (startPass st currentInput).1.dict
      (diffHygiene (startPass st currentInput).1.cache
        (startPass st currentInput).1.prevTags (splitInputToSegments input2))
      (splitInputToSegments input2) 0).2.1.get? j = some tg ∧ tg.disabled = false
    exact firstPass_tag_cleared _ (splitInputToSegments input2) _ 0 j pt.raw hj
      (diffHygiene_keyCleared _ _ _ _ hkc)

/-- A concrete previously-disabled tag for the C4 witness. -/
def c4Entry : Tag :=
  { raw := "foo".data, originalText := "foo".data, englishText := "foo".data,
    translation := "某物".data, category := "场景".data,
    syntaxType := SyntaxType.NORMAL, disabled := true, isRefreshing := false }

/-- A concrete state for the C4 witness: `"foo"` was disabled and has just
been deleted from the text (the new input is `"bar"`). -/
def c4State : EngineState :=
  { latestInput := "bar".data
    tags := [c4Entry]
    prevTags := [c4Entry]
    cache := cacheSet (fun _ => none) ("foo".data) c4Entry
    dict := fun _ => none }

/-- Witness for C4: deleting disabled `"foo"` resets its cache entry, and
re-typing `"foo"` yields a non-disabled tag. -/
theorem c4_disable_hygiene_witness :
    c4Entry ∈ c4State.prevTags ∧ c4Entry.disabled = true ∧
    c4Entry.raw ∉ splitInputToSegments ("bar".data) ∧
    c4State.cache c4Entry.raw = some c4Entry ∧
    (startPass c4State ("bar".data)).1.cache c4Entry.raw =
      some { c4Entry with disabled := false } ∧
    (∃ tg, (startPass (startPass c4State ("bar".data)).1 ("foo".data)).1.tags.get? 0 =
      some tg ∧ tg.disabled = false) :=
  ⟨by decide, by decide, by decide, by decide,
   (c4_disable_hygiene c4State ("bar".data) c4Entry c4Entry
      (by decide) (by decide) (by decide) (by decide)).1,
   (c4_disable_hygiene c4State ("bar".data) c4Entry c4Entry
      (by decide) (by decide) (by decide) (by decide)).2 ("foo".data) 0 (by decide)⟩

/-! ## Claim C2: round-trip stability -/

theorem dropWhile_idem (p : Char → Bool) (l : Str) :
    (l.dropWhile p).dropWhile p = l.dropWhile p := by
  induction l with
  | nil => rfl
  | cons a t ih =>
    by_cases h : p a = true
    · rw [List.dropWhile_cons_of_pos h]; exact ih
    · rw [List.dropWhile_cons_of_neg h, List.dropWhile_cons_of_neg h]

theorem trimLeft_head (s : Str) (h : trimLeft s = s) (a : Char) (t : Str)
    (hs : s = a :: t) : isSpaceChar a = false := by
  subst hs
  by_cases hp : isSpaceChar a = true
  · exfalso
    unfold trimLeft at h
    rw [List.dropWhile_cons_of_pos hp] at h
    have hlen := congrArg List.length h
    have hle : (t.dropWhile isSpaceChar).length ≤ t.length :=
      (List.dropWhile_sublist _).length_le
    simp at hlen
    omega
  · simpa using hp

theorem trimRight_prefix (s : Str) : trimRight s <+: s := by
  unfold trimRight
  have h : s.reverse.dropWhile isSpaceChar <:+ s.reverse := List.dropWhile_suffix _
  have h2 := List.reverse_prefix.mpr h
  rwa [List.reverse_reverse] at h2

theorem trimLeft_trimRight (s : Str) (h : trimLeft s = s) :
    trimLeft (trimRight s) = trimRight s := by
  cases hr : trimRight s with
  | nil => rfl
  | cons a t =>
    have hpre : trimRight s <+: s := trimRight_prefix s
    rw [hr] at hpre
    obtain ⟨rest, hrest⟩ := hpre
    have ha : isSpaceChar a = false := trimLeft_head s h a (t ++ rest) hrest.symm
    show List.dropWhile isSpaceChar (a :: t) = a :: t
    rw [List.dropWhile_cons_of_neg (by simp [ha])]

theorem trimLeft_idem (s : Str) : trimLeft (trimLeft s) = trimLeft s :=
  dropWhile_idem _ _

theorem trimRight_idem (s : Str) : trimRight (trimRight s) = trimRight s := by
  unfold trimRight
  rw [List.reverse_reverse, dropWhile_idem]

theorem trim_idem (s : Str) : trim (trim s) = trim s := by
  unfold trim
  rw [trimLeft_trimRight (trimLeft s) (trimLeft_idem s), trimRight_idem]

theorem trimLeft_of_trim_eq (s : Str) (h : trim s = s) : trimLeft s = s := by
  have h2 := trimLeft_trimRight (trimLeft s) (trimLeft_idem s)
  unfold trim at h
  rw [h] at h2
  exact h2

theorem trimRight_of_trim_eq (s : Str) (h : trim s = s) : trimRight s = s := by
  have h2 : trimRight (trim s) = trim s := by
    unfold trim
    rw [trimRight_idem]
  rw [h] at h2
  exact h2

theorem mem_trim {c : Char} {s : Str} (h : c ∈ trim s) : c ∈ s := by
  unfold trim trimRight trimLeft at h
  rw [List.mem_reverse] at h
  have h2 : c ∈ (s.dropWhile isSpaceChar).reverse := (List.dropWhile_sublist _).subset h
  rw [List.mem_reverse] at h2
  exact (List.dropWhile_sublist _).subset h2

theorem splitOnDelims_ne_nil (s : Str) : splitOnDelims s ≠ [] := by
  cases s with
  | nil => simp [splitOnDelims]
  | cons c cs =>
    unfold splitOnDelims
    by_cases h : isDelim c = true
    · rw [if_pos h]; simp
    · rw [if_neg h]
      cases hs : splitOnDelims cs <;> simp

theorem splitOnDelims_delimFree (s : Str) :
    ∀ piece ∈ splitOnDelims s, ∀ c ∈ piece, isDelim c = false := by
  induction s with
  | nil =>
    intro piece hp c hc
    simp only [splitOnDelims, List.mem_singleton] at hp
    subst hp; simp at hc
  | cons a t ih =>
    intro piece hp c hc
    unfold splitOnDelims at hp
    by_cases h : isDelim a = true
    · rw [if_pos h] at hp
      rcases List.mem_cons.mp hp with rfl | hp2
      · simp at hc
      · exact ih piece hp2 c hc
    · rw [if_neg h] at hp
      cases hs : splitOnDelims t with
      | nil => exact absurd hs (splitOnDelims_ne_nil t)
      | cons p0 ps =>
        rw [hs] at hp
        rcases List.mem_cons.mp hp with rfl | hp2
        · rcases List.mem_cons.mp hc with rfl | hc2
          · simpa using h
          · exact ih p0 (by rw [hs]; exact List.mem_cons_self _ _) c hc2
        · exact ih piece (by rw [hs]; exact List.mem_cons_of_mem _ hp2) c hc

/-- A string that can appear as a segment: nonempty, trim-stable, and free of
delimiter characters. -/
def validSeg (s : Str) : Prop :=
  s ≠ [] ∧ trim s = s ∧ ∀ c ∈ s, isDelim c = false

theorem segs_valid (text : Str) : ∀ s ∈ splitInputToSegments text, validSeg s := by
  intro s hs
  unfold splitInputToSegments at hs
  rw [List.mem_filter] at hs
  obtain ⟨hmem, hne⟩ := hs
  rw [List.mem_map] at hmem
  obtain ⟨piece, hpiece, rfl⟩ := hmem
  refine ⟨by simpa using hne, trim_idem piece, ?_⟩
  intro c hc
  exact splitOnDelims_delimFree text piece hpiece c (mem_trim hc)

theorem splitOnDelims_append_free (t : Str) (ht : ∀ c ∈ t, isDelim c = false) :
    ∀ (X : Str) (h0 : Str) (rest : List Str), splitOnDelims X = h0 :: rest →
      splitOnDelims (t ++ X) = (t ++ h0) :: rest := by
  induction t with
  | nil => intro X h0 rest h; simpa using h
  | cons a t2 ih =>
    intro X h0 rest h
    have ha : isDelim a = false := ht a (List.mem_cons_self _ _)
    show splitOnDelims (a :: (t2 ++ X)) = _
    unfold splitOnDelims
    rw [if_neg (by simp [ha])]
    rw [ih (fun c hc => ht c (List.mem_cons_of_mem _ hc)) X h0 rest h]
    rfl

theorem splitOnDelims_cons_delim (a : Char) (X : Str) (ha : isDelim a = true) :
    splitOnDelims (a :: X) = [] :: splitOnDelims X := by
  show (if isDelim a = true then [] :: splitOnDelims X else _) = [] :: splitOnDelims X
  rw [if_pos ha]

theorem splitOnDelims_free (s : Str) (hs : ∀ c ∈ s, isDelim c = false) :
    splitOnDelims s = [s] := by
  have h := splitOnDelims_append_free s hs [] [] [] rfl
  simpa using h

theorem trim_cons_space (c : Char) (s : Str) (hc : isSpaceChar c = true) :
    trim (c :: s) = trim s := by
  unfold trim trimLeft
  rw [List.dropWhile_cons_of_pos hc]

/-- `currentTags.map(t => t.raw).join(', ')` from `updateInputFromTags`. -/
def joinComma : List Str → Str
  | [] => []
  | [s] => s
  | s :: s2 :: rest => s ++ ',' :: ' ' :: joinComma (s2 :: rest)

theorem segments_single (s : Str) (hs : validSeg s) :
    splitInputToSegments s = [s] := by
  have hne : (!s.isEmpty) = true := by
    cases s with
    | nil => exact absurd rfl hs.1
    | cons a t => rfl
  unfold splitInputToSegments
  rw [splitOnDelims_free s hs.2.2]
  show List.filter (fun x => !x.isEmpty) [trim s] = [s]
  rw [hs.2.1, List.filter_cons, if_pos hne]
  rfl

theorem segments_append_seg (s : Str) (hs : validSeg s) (T : Str) :
    splitInputToSegments (s ++ ',' :: T) = s :: splitInputToSegments T := by
  have hne : (!s.isEmpty) = true := by
    cases s with
    | nil => exact absurd rfl hs.1
    | cons a t => rfl
  have h1 : splitOnDelims (s ++ ',' :: T) = (s ++ []) :: splitOnDelims T :=
    splitOnDelims_append_free s hs.2.2 (',' :: T) [] (splitOnDelims T)
      (splitOnDelims_cons_delim ',' T (by decide))
  unfold splitInputToSegments
  rw [h1, List.append_nil, List.map_cons, List.filter_cons, hs.2.1, if_pos hne]

theorem segments_cons_space (T : Str) :
    splitInputToSegments (' ' :: T) = splitInputToSegments T := by
  obtain ⟨h0, rest0, hsplit⟩ : ∃ h0 rest0, splitOnDelims T = h0 :: rest0 := by
    cases hs : splitOnDelims T with
    | nil => exact absurd hs (splitOnDelims_ne_nil T)
    | cons a b => exact ⟨a, b, rfl⟩
  have h1 : splitOnDelims (' ' :: T) = (' ' :: h0) :: rest0 := by
    unfold splitOnDelims
    rw [if_neg (by decide)]
    rw [hsplit]
  unfold splitInputToSegments
  rw [h1, hsplit, List.map_cons, List.map_cons, List.filter_cons, List.filter_cons,
    trim_cons_space ' ' h0 (by decide)]

theorem roundtrip_valid (l : List Str) :
    (∀ s ∈ l, validSeg s) → splitInputToSegments (joinComma l) = l := by
  induction l with
  | nil => intro h; rfl
  | cons s rest ih =>
    intro h
    cases rest with
    | nil => exact segments_single s (h s (List.mem_cons_self _ _))
    | cons s2 rest2 =>
      show splitInputToSegments (s ++ ',' :: ' ' :: joinComma (s2 :: rest2)) = _
      rw [segments_append_seg s (h s (List.mem_cons_self _ _)),
        segments_cons_space, ih (fun x hx => h x (List.mem_cons_of_mem _ hx))]

/-- The system invariant that every session-cache entry's `raw` field equals
its key (every write site stores `raw := key`). -/
def cacheRawInv (c : Cache) : Prop := ∀ k t, c k = some t → t.raw = k

theorem cacheSet_rawInv (c : Cache) (k : Str) (v : Tag) (h : cacheRawInv c)
    (hv : v.raw = k) : cacheRawInv (cacheSet c k v) := by
  intro k' t ht
  unfold cacheSet at ht
  by_cases hk : k' = k
  · rw [if_pos hk] at ht; injection ht with he; rw [← he, hv, hk]
  · rw [if_neg hk] at ht; exact h k' t ht

theorem hygStep_rawInv (segs : List Str) (acc : Cache) (pt : Tag)
    (h : cacheRawInv acc) : cacheRawInv (hygStep segs acc pt) := by
  intro k t ht
  rcases hygStep_value segs acc pt k with hsame | ⟨cur, hcur, hset⟩
  · rw [hsame] at ht; exact h k t ht
  · rw [hset] at ht
    injection ht with he
    rw [← he]
    exact h k cur hcur

theorem diffHygiene_rawInv (prevTags : List Tag) :
    ∀ (c : Cache) (segs : List Str), cacheRawInv c →
      cacheRawInv (diffHygiene c prevTags segs) := by
  induction prevTags with
  | nil => intro c segs h; exact h
  | cons pt rest ih =>
    intro c segs h
    exact ih (hygStep segs c pt) segs (hygStep_rawInv segs c pt h)

theorem firstPass_rawInv (dict : DictMap) (segs : List Str) :
    ∀ (c : Cache) (i : Nat), cacheRawInv c →
      cacheRawInv (firstPass dict c segs i).1 := by
  induction segs with
  | nil => intro c i h; exact h
  | cons seg rest ih =>
    intro c i h
    unfold firstPass
    cases hc : c seg with
    | some cached => exact ih c (i + 1) h
    | none =>
      cases hd : dictLookup dict (cleanTextForLookup seg) with
      | some de =>
        exact ih (cacheSet c seg (mkDictTag seg (cleanTextForLookup seg) de)) (i + 1)
          (cacheSet_rawInv c seg _ h rfl)
      | none => exact ih c (i + 1) h

theorem firstPass_map_raw (dict : DictMap) (segs : List Str) :
    ∀ (c : Cache) (i : Nat), cacheRawInv c →
      (firstPass dict c segs i).2.1.map (fun t => t.raw) = segs := by
  induction segs with
  | nil => intro c i h; rfl
  | cons seg rest ih =>
    intro c i h
    unfold firstPass
    cases hc : c seg with
    | some cached =>
      rw [List.map_cons, h seg cached hc, ih c (i + 1) h]
    | none =>
      cases hd : dictLookup dict (cleanTextForLookup seg) with
      | some de =>
        rw [List.map_cons,
          ih (cacheSet c seg (mkDictTag seg (cleanTextForLookup seg) de)) (i + 1)
            (cacheSet_rawInv c seg _ h rfl)]
        rfl
      | none =>
        rw [List.map_cons, ih c (i + 1) h]
        rfl

theorem list_set_self {α : Type} (l : List α) :
    ∀ (i : Nat) (x : α), l.get? i = some x → l.set i x = l := by
  induction l with
  | nil => intro i x h; rfl
  | cons a t ih =>
    intro i x h
    cases i with
    | zero =>
      injection h with he
      rw [← he]
      rfl
    | succ i =>
      show a :: t.set i x = a :: t
      rw [ih i x h]

theorem finStep_map_raw (c : Cache) (hc : cacheRawInv c) (segs : List Str)
    (ts : List Tag) (i : Nat) (h : ts.map (fun t => t.raw) = segs) :
    (finStep c segs ts i).map (fun t => t.raw) = segs := by
  unfold finStep
  cases hcd : c (segs.getD i []) with
  | some cached =>
    rw [List.map_set, h]
    show segs.set i cached.raw = segs
    rw [hc _ cached hcd]
    cases hg : segs.get? i with
    | some x =>
      have hgd : segs.getD i [] = x := by
        rw [List.getD_eq_getElem?_getD, ← List.get?_eq_getElem?, hg]
        rfl
      rw [hgd]
      exact list_set_self segs i x hg
    | none =>
      apply List.set_eq_of_length_le
      by_contra hlt
      push_neg at hlt
      rw [List.get?_eq_get hlt] at hg
      exact Option.noConfusion hg
  | none =>
    cases hg : ts.get? i with
    | some t =>
      rw [List.map_set, h]
      have hsg : segs.get? i = some t.raw := by
        rw [← h, List.get?_map, hg]
        rfl
      exact list_set_self segs i t.raw hsg
    | none => exact h

theorem finalizeTags_map_raw (c : Cache) (hc : cacheRawInv c) (segs : List Str)
    (idxs : List Nat) :
    ∀ (base : List Tag), base.map (fun t => t.raw) = segs →
      (finalizeTags c segs idxs base).map (fun t => t.raw) = segs := by
  induction idxs with
  | nil => intro base h; exact h
  | cons i rest ih =>
    intro base h
    exact ih (finStep c segs base i) (finStep_map_raw c hc segs base i h)

theorem foldl_resCache_rawInv (results : List Tag) :
    ∀ (c : Cache), cacheRawInv c →
      cacheRawInv (results.foldl (fun c r => cacheSet c r.raw (resTagData r)) c) := by
  induction results with
  | nil => intro c h; exact h
  | cons r rest ih =>
    intro c h
    exact ih (cacheSet c r.raw (resTagData r)) (cacheSet_rawInv c r.raw _ h rfl)

theorem flipParts_ups_raw (b : Bool) :
    ∀ (parts : List Str) (tags : List Tag),
      ∀ p ∈ (flipParts b parts tags).2, p.2.raw = p.1 := by
  intro parts
  induction parts with
  | nil => intro tags q hq; simp [flipParts] at hq
  | cons p ps ih =>
    intro tags q hq
    cases tags with
    | nil =>
      unfold flipParts at hq
      exact ih [] q hq
    | cons t tr =>
      unfold flipParts at hq
      by_cases h1 : (isDelimRun p = true ∨ (trim p).isEmpty = true)
      · rw [if_pos h1] at hq; exact ih (t :: tr) q hq
      · rw [if_neg h1] at hq
        by_cases h2 : t.isRefreshing = true
        · rw [if_pos h2] at hq; exact ih tr q hq
        · rw [if_neg h2] at hq
          by_cases h3 : (!canFlip b t) = true
          · rw [if_pos h3] at hq; exact ih tr q hq
          · rw [if_neg h3] at hq
            rcases List.mem_cons.mp hq with rfl | hq2
            · rfl
            · exact ih tr q hq2

theorem foldl_ups_rawInv (ups : List (Str × Tag)) :
    (∀ p ∈ ups, p.2.raw = p.1) →
    ∀ (c : Cache), cacheRawInv c →
      cacheRawInv (ups.foldl (fun c p => cacheSet c p.1 p.2) c) := by
  induction ups with
  | nil => intro hups c h; exact h
  | cons p rest ih =>
    intro hups c h
    exact ih (fun q hq => hups q (List.mem_cons_of_mem _ hq)) (cacheSet c p.1 p.2)
      (cacheSet_rawInv c p.1 p.2 h (hups p (List.mem_cons_self _ _)))

theorem startPass_tags_map_raw (st : EngineState) (currentInput : Str)
    (h : cacheRawInv st.cache) :
    (startPass st currentInput).1.tags.map (fun t => t.raw) =
      splitInputToSegments currentInput := by
  rw [startPass_eq]
  by_cases hsegs : (splitInputToSegments currentInput).isEmpty = true
  · rw [if_pos hsegs]
    show ([] : List Tag).map _ = _
    rw [List.isEmpty_iff.mp hsegs]
    rfl
  · rw [if_neg hsegs]
    exact firstPass_map_raw st.dict _ _ 0 (diffHygiene_rawInv st.prevTags st.cache _ h)

theorem startPass_ctx_map_raw (st : EngineState) (currentInput : Str)
    (h : cacheRawInv st.cache) :
    (startPass st currentInput).2.newTags.map (fun t => t.raw) =
      (startPass st currentInput).2.rawSegments ∧
    (startPass st currentInput).2.rawSegments = splitInputToSegments currentInput := by
  rw [startPass_eq]
  by_cases hsegs : (splitInputToSegments currentInput).isEmpty = true
  · rw [if_pos hsegs]
    refine ⟨?_, rfl⟩
    show ([] : List Tag).map _ = _
    rw [List.isEmpty_iff.mp hsegs]
    rfl
  · rw [if_neg hsegs]
    exact ⟨firstPass_map_raw st.dict _ _ 0 (diffHygiene_rawInv st.prevTags st.cache _ h),
      rfl⟩

/-- Claim C2: joining the `raw` fields of any tag list produced by a
resolution pass with the canonical `', '` delimiter and re-segmenting yields
the same ordered list — both for the immediately published first-pass list
and for the list published on final-batch completion; the `raw = key` cache
invariant this relies on is preserved by every cache-writing operation. -/
theorem c2_round_trip :
    (∀ (st : EngineState) (currentInput : Str), cacheRawInv st.cache →
        splitInputToSegments
          (joinComma ((startPass st currentInput).1.tags.map (fun t => t.raw))) =
          (startPass st currentInput).1.tags.map (fun t => t.raw)) ∧
    (∀ (seed : DictMap) (st st2 : EngineState) (currentInput : Str) (results : List Tag),
        cacheRawInv st.cache → cacheRawInv st2.cache →
        st2.latestInput = (startPass st currentInput).2.snapshot →
        splitInputToSegments
          (joinComma ((commitFinal seed st2 (startPass st currentInput).2 results).tags.map
            (fun t => t.raw))) =
          (commitFinal seed st2 (startPass st currentInput).2 results).tags.map
            (fun t => t.raw)) ∧
    (∀ (st : EngineState) (currentInput : Str), cacheRawInv st.cache →
        cacheRawInv (startPass st currentInput).1.cache) ∧
    (∀ (seed : DictMap) (st : EngineState) (ctx : PassCtx) (results : List Tag),
        cacheRawInv st.cache → cacheRawInv (commitFinal seed st ctx results).cache) ∧
    (∀ (st : EngineState) (b : Bool), cacheRawInv st.cache →
        cacheRawInv (handleLanguageToggle st b).cache) := by
  refine ⟨?_, ?_, ?_, ?_, ?_⟩
  · intro st currentInput h
    rw [startPass_tags_map_raw st currentInput h]
    exact roundtrip_valid _ (segs_valid currentInput)
  · intro seed st st2 currentInput results hinv hinv2 hsnap
    unfold commitFinal
    rw [if_pos hsnap]
    have hinvc2 : cacheRawInv
        (results.foldl (fun c r => cacheSet c r.raw (resTagData r)) st2.cache) :=
      foldl_resCache_rawInv results st2.cache hinv2
    have hbase := (startPass_ctx_map_raw st currentInput hinv).1
    have hsegs := (startPass_ctx_map_raw st currentInput hinv).2
    have hfin := finalizeTags_map_raw _ hinvc2 (startPass st currentInput).2.rawSegments
      (startPass st currentInput).2.missingIndices (startPass st currentInput).2.newTags
      hbase
    show splitInputToSegments (joinComma ((finalizeTags _ _ _ _).map (fun t => t.raw))) =
      (finalizeTags _ _ _ _).map (fun t => t.raw)
    rw [hfin, hsegs]
    exact roundtrip_valid _ (segs_valid currentInput)
  · intro st currentInput h
    rw [startPass_eq]
    by_cases hsegs : (splitInputToSegments currentInput).isEmpty = true
    · rw [if_pos hsegs]
      exact diffHygiene_rawInv st.prevTags st.cache _ h
    · rw [if_neg hsegs]
      exact firstPass_rawInv st.dict _ _ 0 (diffHygiene_rawInv st.prevTags st.cache _ h)
  · intro seed st ctx results h
    unfold commitFinal
    by_cases hrace : st.latestInput = ctx.snapshot
    · rw [if_pos hrace]; exact foldl_resCache_rawInv results st.cache h
    · rw [if_neg hrace]; exact foldl_resCache_rawInv results st.cache h
  · intro st b h
    exact foldl_ups_rawInv _ (flipParts_ups_raw _ _ _) st.cache h

/-- A concrete empty-cache state for the C2 witness. -/
def c2State : EngineState :=
  { latestInput := "1girl, solo".data, tags := [], prevTags := [],
    cache := fun _ => none, dict := fun _ => none }

/-- Witness for C2 at a concrete pass: the published raw list survives a
join-and-resegment round trip. -/
theorem c2_round_trip_witness :
    (startPass c2State ("1girl, solo".data)).1.tags.map (fun t => t.raw) =
      ["1girl".data, "solo".data] ∧
    splitInputToSegments
      (joinComma ((startPass c2State ("1girl, solo".data)).1.tags.map (fun t => t.raw))) =
      (startPass c2State ("1girl, solo".data)).1.tags.map (fun t => t.raw) :=
  ⟨by decide,
   c2_round_trip.1 c2State ("1girl, solo".data) (fun k t ht => Option.noConfusion ht)⟩

/-! ## Claim C7: display-language flip -/

/-- Alternating text/delimiter structure of `splitKD` output: a trailing text
piece, or a text piece followed by a nonempty delimiter run and the rest. -/
inductive AltTD : List Str → Prop
  | single (t : Str) : (∀ c ∈ t, isDelim c = false) → AltTD [t]
  | cons (t d : Str) (rest : List Str) :
      (∀ c ∈ t, isDelim c = false) → d ≠ [] → (∀ c ∈ d, isDelim c = true) →
      AltTD rest → AltTD (t :: d :: rest)

theorem splitKD_ne_nil (s : Str) : splitKD s ≠ [] := by
  cases s with
  | nil => simp [splitKD]
  | cons c cs =>
    show splitKDCons c (splitKD cs) ≠ []
    cases hs : splitKD cs with
    | nil => simp [splitKDCons]
    | cons piece rest =>
      show (if isDelim c = true then splitKDDelim c piece rest
            else (c :: piece) :: rest) ≠ []
      by_cases h : isDelim c = true
      · rw [if_pos h]
        cases piece with
        | nil =>
          cases rest with
          | nil => simp [splitKDDelim]
          | cons d r2 => simp [splitKDDelim]
        | cons a t => simp [splitKDDelim]
      · rw [if_neg h]; simp

theorem altTD_splitKDDelim (c : Char) (h : isDelim c = true) (piece : Str)
    (rest : List Str) (ih : AltTD (piece :: rest)) :
    AltTD (splitKDDelim c piece rest) := by
  cases piece with
  | nil =>
    cases rest with
    | nil =>
      show AltTD ([] :: [c] :: [[]])
      exact AltTD.cons [] [c] [[]] (by intro x hx; simp at hx) (by simp)
        (by
          intro x hx
          rcases List.mem_singleton.mp hx with rfl
          exact h)
        (AltTD.single [] (by intro x hx; simp at hx))
    | cons d rest2 =>
      show AltTD ([] :: (c :: d) :: rest2)
      cases ih with
      | cons t0 d0 r0 ht hd0 hdel hrest =>
        exact AltTD.cons [] (c :: d) rest2 (by intro x hx; simp at hx) (by simp)
          (by
            intro x hx
            rcases List.mem_cons.mp hx with rfl | hx2
            · exact h
            · exact hdel x hx2)
          hrest
  | cons a t2 =>
    show AltTD ([] :: [c] :: (a :: t2) :: rest)
    exact AltTD.cons [] [c] ((a :: t2) :: rest) (by intro x hx; simp at hx) (by simp)
      (by
        intro x hx
        rcases List.mem_singleton.mp hx with rfl
        exact h)
      ih

theorem altTD_splitKDCons (c : Char) (l : List Str) (hl : AltTD l) :
    AltTD (splitKDCons c l) := by
  cases l with
  | nil =>
    show AltTD [[]]
    exact AltTD.single [] (by intro x hx; simp at hx)
  | cons piece rest =>
    show AltTD (if isDelim c = true then splitKDDelim c piece rest
                else (c :: piece) :: rest)
    by_cases h : isDelim c = true
    · rw [if_pos h]
      exact altTD_splitKDDelim c h piece rest hl
    · rw [if_neg h]
      have h' : isDelim c = false := by simpa using h
      cases hl with
      | single t0 ht =>
        exact AltTD.single (c :: piece)
          (by
            intro x hx
            rcases List.mem_cons.mp hx with rfl | hx2
            · exact h'
            · exact ht x hx2)
      | cons t0 d0 r0 ht hd0 hdel hrest =>
        exact AltTD.cons (c :: piece) d0 r0
          (by
            intro x hx
            rcases List.mem_cons.mp hx with rfl | hx2
            · exact h'
            · exact ht x hx2)
          hd0 hdel hrest

theorem altTD_splitKD (s : Str) : AltTD (splitKD s) := by
  induction s with
  | nil => exact AltTD.single [] (by intro x hx; simp at hx)
  | cons c cs ih => exact altTD_splitKDCons c (splitKD cs) ih

/-- The text pieces of an alternating decomposition (every other element). -/
def textChunks : List Str → List Str
  | [] => []
  | [t] => [t]
  | t :: _ :: rest => t :: textChunks rest

/-- The nonblank trimmed text pieces of a decomposition — exactly the
segments its flattening re-segments to (for alternating decompositions). -/
def nonblankTrims (parts : List Str) : List Str :=
  ((textChunks parts).map trim).filter (fun s => !s.isEmpty)

/-- The number of nonblank text pieces: how many tags the flip walk pairs. -/
def nbCount (parts : List Str) : Nat :=
  ((textChunks parts).filter (fun p => !(trim p).isEmpty)).length

theorem splitOnDelims_delims_lead (d : Str) (hd : ∀ c ∈ d, isDelim c = true) :
    ∀ (R : Str), splitOnDelims (d ++ R) =
      List.replicate d.length [] ++ splitOnDelims R := by
  induction d with
  | nil => intro R; rfl
  | cons a d2 ih =>
    intro R
    have ha : isDelim a = true := hd a (List.mem_cons_self _ _)
    show splitOnDelims (a :: (d2 ++ R)) = _
    rw [splitOnDelims_cons_delim a _ ha,
      ih (fun c hc => hd c (List.mem_cons_of_mem _ hc)) R]
    rfl

theorem filter_map_trim_replicate (n : Nat) :
    (List.filter (fun s => !s.isEmpty) ((List.replicate n ([] : Str)).map trim)) = [] := by
  induction n with
  | zero => rfl
  | succ n ih =>
    show List.filter _ (trim [] :: (List.replicate n ([] : Str)).map trim) = []
    rw [List.filter_cons]
    rw [if_neg (by decide)]
    exact ih

theorem segs_join_alt (parts : List Str) (h : AltTD parts) :
    splitInputToSegments parts.flatten = nonblankTrims parts := by
  induction h with
  | single t ht =>
    show splitInputToSegments ([t].flatten) = _
    have hf : ([t] : List Str).flatten = t := by simp
    rw [hf]
    unfold splitInputToSegments nonblankTrims
    rw [splitOnDelims_free t ht]
    rfl
  | cons t d rest ht hdne hdel hrest ih =>
    show splitInputToSegments ((t :: d :: rest).flatten) = _
    have hf : (t :: d :: rest).flatten = t ++ (d ++ rest.flatten) := by simp
    rw [hf]
    obtain ⟨a, d2, rfl⟩ : ∃ a d2, d = a :: d2 := by
      cases d with
      | nil => exact absurd rfl hdne
      | cons a d2 => exact ⟨a, d2, rfl⟩
    have hsplit1 : splitOnDelims ((a :: d2) ++ rest.flatten) =
        [] :: (List.replicate d2.length [] ++ splitOnDelims rest.flatten) := by
      rw [splitOnDelims_delims_lead (a :: d2) hdel rest.flatten]
      rfl
    have hsplit2 : splitOnDelims (t ++ ((a :: d2) ++ rest.flatten)) =
        (t ++ []) :: (List.replicate d2.length [] ++ splitOnDelims rest.flatten) :=
      splitOnDelims_append_free t ht _ _ _ hsplit1
    unfold splitInputToSegments
    rw [hsplit2, List.append_nil, List.map_cons, List.filter_cons, List.map_append,
      List.filter_append, filter_map_trim_replicate]
    show (if (!(trim t).isEmpty) = true then
        trim t :: List.filter (fun s => !s.isEmpty) ((splitOnDelims rest.flatten).map trim)
      else List.filter (fun s => !s.isEmpty) ((splitOnDelims rest.flatten).map trim)) = _
    have hih : List.filter (fun s => !s.isEmpty) ((splitOnDelims rest.flatten).map trim) =
        nonblankTrims rest := ih
    rw [hih]
    show _ = nonblankTrims (t :: (a :: d2) :: rest)
    unfold nonblankTrims
    show _ = List.filter _ ((t :: textChunks rest).map trim)
    rw [List.map_cons, List.filter_cons]

theorem dropWhile_append_all (p : Char → Bool) (l1 : Str)
    (h : ∀ c ∈ l1, p c = true) (l2 : Str) :
    (l1 ++ l2).dropWhile p = l2.dropWhile p := by
  induction l1 with
  | nil => rfl
  | cons a t ih =>
    show List.dropWhile p (a :: (t ++ l2)) = _
    rw [List.dropWhile_cons_of_pos (h a (List.mem_cons_self _ _))]
    exact ih (fun c hc => h c (List.mem_cons_of_mem _ hc))

theorem trimLeft_append_space (pre : Str) (hpre : ∀ c ∈ pre, isSpaceChar c = true)
    (X : Str) : trimLeft (pre ++ X) = trimLeft X :=
  dropWhile_append_all isSpaceChar pre hpre X

theorem trimRight_append_space (X suf : Str) (hsuf : ∀ c ∈ suf, isSpaceChar c = true) :
    trimRight (X ++ suf) = trimRight X := by
  unfold trimRight
  rw [List.reverse_append,
    dropWhile_append_all isSpaceChar suf.reverse
      (fun c hc => hsuf c (List.mem_reverse.mp hc)) X.reverse]

theorem trim_pad (pre tgt suf : Str) (hpre : ∀ c ∈ pre, isSpaceChar c = true)
    (hsuf : ∀ c ∈ suf, isSpaceChar c = true) (hne : tgt ≠ [])
    (hst : trim tgt = tgt) : trim (pre ++ tgt ++ suf) = tgt := by
  have hL : trimLeft tgt = tgt := trimLeft_of_trim_eq tgt hst
  have hR : trimRight tgt = tgt := trimRight_of_trim_eq tgt hst
  obtain ⟨a, t2, rfl⟩ : ∃ a t2, tgt = a :: t2 := by
    cases tgt with
    | nil => exact absurd rfl hne
    | cons a t2 => exact ⟨a, t2, rfl⟩
  have ha : isSpaceChar a = false := trimLeft_head _ hL a t2 rfl
  unfold trim
  have h1 : trimLeft ((pre ++ (a :: t2)) ++ suf) = (a :: t2) ++ suf := by
    rw [List.append_assoc, trimLeft_append_space pre hpre ((a :: t2) ++ suf)]
    show List.dropWhile isSpaceChar (a :: (t2 ++ suf)) = a :: (t2 ++ suf)
    rw [List.dropWhile_cons_of_neg (by simp [ha])]
  rw [h1, trimRight_append_space (a :: t2) suf hsuf, hR]

theorem delimFree_not_delimRun (t : Str) (ht : ∀ c ∈ t, isDelim c = false) :
    isDelimRun t = false := by
  cases t with
  | nil => rfl
  | cons a t2 =>
    have ha := ht a (List.mem_cons_self _ _)
    show (!(a :: t2).isEmpty && (a :: t2).all isDelim) = false
    have h2 : (a :: t2).all isDelim = false := by
      rw [List.all_cons, ha]
      rfl
    rw [h2, Bool.and_false]

theorem delimRun_of (d : Str) (hne : d ≠ []) (hdel : ∀ c ∈ d, isDelim c = true) :
    isDelimRun d = true := by
  cases d with
  | nil => exact absurd rfl hne
  | cons a t =>
    show (!(a :: t).isEmpty && (a :: t).all isDelim) = true
    have h1 : (a :: t).all isDelim = true := List.all_eq_true.mpr fun x hx => hdel x hx
    rw [h1]
    rfl

/-- A settled tag whose target display string is flippable and segment-safe:
nonempty, trim-stable and delimiter-free. -/
def goodTag (b : Bool) (t : Tag) : Prop :=
  t.isRefreshing = false ∧ canFlip b t = true ∧ targetOf b t ≠ [] ∧
  trim (targetOf b t) = targetOf b t ∧ ∀ c ∈ targetOf b t, isDelim c = false

instance (b : Bool) (t : Tag) : Decidable (goodTag b t) := by
  unfold goodTag
  infer_instance

theorem nbCount_single_blank (t : Str) (h : (trim t).isEmpty = true) :
    nbCount [t] = 0 := by
  unfold nbCount
  show (List.filter (fun p => !(trim p).isEmpty) [t]).length = 0
  rw [List.filter_cons, if_neg (by simp [h])]
  rfl

theorem nbCount_single_nonblank (t : Str) (h : (trim t).isEmpty = false) :
    nbCount [t] = 1 := by
  unfold nbCount
  show (List.filter (fun p => !(trim p).isEmpty) [t]).length = 1
  rw [List.filter_cons, if_pos (by simp [h])]
  rfl

theorem nbCount_cons_blank (t d : Str) (rest : List Str)
    (h : (trim t).isEmpty = true) : nbCount (t :: d :: rest) = nbCount rest := by
  unfold nbCount
  show (List.filter (fun p => !(trim p).isEmpty) (t :: textChunks rest)).length = _
  rw [List.filter_cons, if_neg (by simp [h])]

theorem nbCount_cons_nonblank (t d : Str) (rest : List Str)
    (h : (trim t).isEmpty = false) :
    nbCount (t :: d :: rest) = nbCount rest + 1 := by
  unfold nbCount
  show (List.filter (fun p => !(trim p).isEmpty) (t :: textChunks rest)).length = _
  rw [List.filter_cons, if_pos (by simp [h])]
  rfl

theorem flipParts_blank_step (b : Bool) (p : Str) (ps : List Str) (tags : List Tag)
    (hbl : (trim p).isEmpty = true) :
    flipParts b (p :: ps) tags =
      ((p :: (flipParts b ps tags).1), (flipParts b ps tags).2) := by
  cases tags with
  | nil => rfl
  | cons tg tr =>
    simp only [flipParts]
    rw [if_pos (Or.inr hbl)]

theorem flipParts_delim_step (b : Bool) (d : Str) (ps : List Str) (tags : List Tag)
    (hdr : isDelimRun d = true) :
    flipParts b (d :: ps) tags =
      ((d :: (flipParts b ps tags).1), (flipParts b ps tags).2) := by
  cases tags with
  | nil => rfl
  | cons tg tr =>
    simp only [flipParts]
    rw [if_pos (Or.inl hdr)]

theorem flipParts_flip_step (b : Bool) (p : Str) (ps : List Str) (tg : Tag)
    (tr : List Tag) (hcond1 : ¬(isDelimRun p = true ∨ (trim p).isEmpty = true))
    (href : tg.isRefreshing = false) (hcf : canFlip b tg = true) :
    flipParts b (p :: ps) (tg :: tr) =
      (((p.takeWhile isSpaceChar ++ targetOf b tg ++
          ((p.dropWhile isSpaceChar).reverse.takeWhile isSpaceChar).reverse) ::
          (flipParts b ps tr).1),
       (targetOf b tg, { tg with raw := targetOf b tg }) :: (flipParts b ps tr).2) := by
  simp only [flipParts]
  rw [if_neg hcond1, if_neg (by simp [href]), if_neg (by simp [hcf])]

theorem flipParts_full (b : Bool) (parts : List Str) (hAlt : AltTD parts) :
    ∀ (tags : List Tag),
      (∀ t ∈ tags, goodTag b t) →
      nbCount parts = tags.length →
      AltTD (flipParts b parts tags).1 ∧
      nonblankTrims (flipParts b parts tags).1 = tags.map (targetOf b) ∧
      (flipParts b parts tags).2 =
        tags.map (fun t => (targetOf b t, { t with raw := targetOf b t })) := by
  induction hAlt with
  | single t ht =>
    intro tags hgood hcount
    by_cases hbl : (trim t).isEmpty = true
    · rw [nbCount_single_blank t hbl] at hcount
      have htags : tags = [] := List.length_eq_zero.mp hcount.symm
      subst htags
      refine ⟨AltTD.single t ht, ?_, rfl⟩
      show nonblankTrims [t] = []
      unfold nonblankTrims
      show List.filter _ [trim t] = []
      rw [List.filter_cons, if_neg (by simp [hbl])]
      rfl
    · have hbl' : (trim t).isEmpty = false := by simpa using hbl
      rw [nbCount_single_nonblank t hbl'] at hcount
      obtain ⟨tg, tr, rfl⟩ : ∃ tg tr, tags = tg :: tr := by
        cases tags with
        | nil => simp at hcount
        | cons tg tr => exact ⟨tg, tr, rfl⟩
      have htr : tr = [] := by
        have hc2 : (tg :: tr).length = 1 := hcount.symm
        rw [List.length_cons] at hc2
        exact List.length_eq_zero.mp (by omega)
      subst htr
      obtain ⟨href, hcf, hne, hst, hdf⟩ := hgood tg (List.mem_cons_self _ _)
      have hcond1 : ¬(isDelimRun t = true ∨ (trim t).isEmpty = true) := by
        rw [delimFree_not_delimRun t ht]
        simp [hbl']
      rw [flipParts_flip_step b t [] tg [] hcond1 href hcf]
      have hpre : ∀ c ∈ t.takeWhile isSpaceChar, isSpaceChar c = true :=
        fun c hc => List.mem_takeWhile_imp hc
      have hsuf : ∀ c ∈ ((t.dropWhile isSpaceChar).reverse.takeWhile isSpaceChar).reverse,
          isSpaceChar c = true :=
        fun c hc => List.mem_takeWhile_imp (List.mem_reverse.mp hc)
      have hpredf : ∀ c ∈ t.takeWhile isSpaceChar, isDelim c = false :=
        fun c hc => ht c ((List.takeWhile_prefix _).subset hc)
      have hsufdf : ∀ c ∈ ((t.dropWhile isSpaceChar).reverse.takeWhile isSpaceChar).reverse,
          isDelim c = false := by
        intro c hc
        have h1 := List.mem_reverse.mp hc
        have h2 := (List.takeWhile_prefix _).subset h1
        have h3 := List.mem_reverse.mp h2
        exact ht c ((List.dropWhile_sublist _).subset h3)
      have htrim : trim (t.takeWhile isSpaceChar ++ targetOf b tg ++
          ((t.dropWhile isSpaceChar).reverse.takeWhile isSpaceChar).reverse) =
          targetOf b tg := trim_pad _ _ _ hpre hsuf hne hst
      refine ⟨AltTD.single _ ?_, ?_, rfl⟩
      · intro c hc
        rcases List.mem_append.mp hc with hc1 | hc2
        · rcases List.mem_append.mp hc1 with hc3 | hc4
          · exact hpredf c hc3
          · exact hdf c hc4
        · exact hsufdf c hc2
      · show nonblankTrims [_] = [targetOf b tg]
        unfold nonblankTrims
        show List.filter _ [trim _] = _
        rw [htrim, List.filter_cons,
          if_pos (by
            cases hx : targetOf b tg with
            | nil => exact absurd hx hne
            | cons y ys => simp [hx])]
        rfl
  | cons t d rest ht hdne hdel hrest ih =>
    intro tags hgood hcount
    have hdr : isDelimRun d = true := delimRun_of d hdne hdel
    by_cases hbl : (trim t).isEmpty = true
    · rw [nbCount_cons_blank t d rest hbl] at hcount
      obtain ⟨ha1, ha2, ha3⟩ := ih tags hgood hcount
      rw [flipParts_blank_step b t (d :: rest) tags hbl,
        flipParts_delim_step b d rest tags hdr]
      refine ⟨AltTD.cons t d _ ht hdne hdel ha1, ?_, ha3⟩
      show nonblankTrims (t :: d :: (flipParts b rest tags).1) = _
      unfold nonblankTrims
      show List.filter _ ((t :: textChunks (flipParts b rest tags).1).map trim) = _
      rw [List.map_cons, List.filter_cons, if_neg (by simp [hbl])]
      exact ha2
    · have hbl' : (trim t).isEmpty = false := by simpa using hbl
      rw [nbCount_cons_nonblank t d rest hbl'] at hcount
      obtain ⟨tg, tr, rfl⟩ : ∃ tg tr, tags = tg :: tr := by
        cases tags with
        | nil => simp at hcount
        | cons tg tr => exact ⟨tg, tr, rfl⟩
      have hcount' : nbCount rest = tr.length := by
        simp at hcount
        omega
      obtain ⟨href, hcf, hne, hst, hdf⟩ := hgood tg (List.mem_cons_self _ _)
      have hcond1 : ¬(isDelimRun t = true ∨ (trim t).isEmpty = true) := by
        rw [delimFree_not_delimRun t ht]
        simp [hbl']
      obtain ⟨ha1, ha2, ha3⟩ := ih tr (fun x hx => hgood x (List.mem_cons_of_mem _ hx))
        hcount'
      rw [flipParts_flip_step b t (d :: rest) tg tr hcond1 href hcf,
        flipParts_delim_step b d rest tr hdr]
      have hpre : ∀ c ∈ t.takeWhile isSpaceChar, isSpaceChar c = true :=
        fun c hc => List.mem_takeWhile_imp hc
      have hsuf : ∀ c ∈ ((t.dropWhile isSpaceChar).reverse.takeWhile isSpaceChar).reverse,
          isSpaceChar c = true :=
        fun c hc => List.mem_takeWhile_imp (List.mem_reverse.mp hc)
      have hpredf : ∀ c ∈ t.takeWhile isSpaceChar, isDelim c = false :=
        fun c hc => ht c ((List.takeWhile_prefix _).subset hc)
      have hsufdf : ∀ c ∈ ((t.dropWhile isSpaceChar).reverse.takeWhile isSpaceChar).reverse,
          isDelim c = false := by
        intro c hc
        have h1 := List.mem_reverse.mp hc
        have h2 := (List.takeWhile_prefix _).subset h1
        have h3 := List.mem_reverse.mp h2
        exact ht c ((List.dropWhile_sublist _).subset h3)
      have htrim : trim (t.takeWhile isSpaceChar ++ targetOf b tg ++
          ((t.dropWhile isSpaceChar).reverse.takeWhile isSpaceChar).reverse) =
          targetOf b tg := trim_pad _ _ _ hpre hsuf hne hst
      refine ⟨AltTD.cons _ d _ ?_ hdne hdel ha1, ?_, ?_⟩
      · intro c hc
        rcases List.mem_append.mp hc with hc1 | hc2
        · rcases List.mem_append.mp hc1 with hc3 | hc4
          · exact hpredf c hc3
          · exact hdf c hc4
        · exact hsufdf c hc2
      · show nonblankTrims (_ :: d :: (flipParts b rest tr).1) = _
        unfold nonblankTrims
        show List.filter _ ((_ :: textChunks (flipParts b rest tr).1).map trim) = _
        rw [List.map_cons, List.filter_cons, htrim,
          if_pos (by
            cases hx : targetOf b tg with
            | nil => exact absurd hx hne
            | cons y ys => simp [hx])]
        show targetOf b tg :: List.filter _ ((textChunks (flipParts b rest tr).1).map trim) =
          targetOf b tg :: tr.map (targetOf b)
        rw [show List.filter (fun s => !s.isEmpty)
            ((textChunks (flipParts b rest tr).1).map trim) =
            nonblankTrims (flipParts b rest tr).1 from rfl, ha2]
      · show (targetOf b tg, { tg with raw := targetOf b tg }) :: (flipParts b rest tr).2 = _
        rw [List.map_cons, ha3]

theorem foldl_ups_stable (ups : List (Str × Tag)) :
    ∀ (c : Cache) (k : Str), (∀ q ∈ ups, q.1 ≠ k) →
      (ups.foldl (fun c p => cacheSet c p.1 p.2) c) k = c k := by
  induction ups with
  | nil => intro c k h; rfl
  | cons p rest ih =>
    intro c k h
    show (rest.foldl (fun c p => cacheSet c p.1 p.2) (cacheSet c p.1 p.2)) k = c k
    rw [ih (cacheSet c p.1 p.2) k (fun q hq => h q (List.mem_cons_of_mem _ hq))]
    unfold cacheSet
    rw [if_neg (fun he => h p (List.mem_cons_self _ _) he.symm)]

theorem foldl_ups_find (ups : List (Str × Tag)) :
    ∀ (c : Cache) (k : Str), (∃ q ∈ ups, q.1 = k) →
      ∃ v, (ups.foldl (fun c p => cacheSet c p.1 p.2) c) k = some v ∧ (k, v) ∈ ups := by
  induction ups with
  | nil =>
    intro c k h
    rcases h with ⟨q, hq, _⟩
    exact absurd hq (List.not_mem_nil q)
  | cons p rest ih =>
    intro c k h
    by_cases hrest : ∃ q ∈ rest, q.1 = k
    · obtain ⟨v, hv, hmem⟩ := ih (cacheSet c p.1 p.2) k hrest
      exact ⟨v, hv, List.mem_cons_of_mem _ hmem⟩
    · have hp : p.1 = k := by
        rcases h with ⟨q, hq, hq1⟩
        rcases List.mem_cons.mp hq with rfl | hq2
        · exact hq1
        · exact absurd ⟨q, hq2, hq1⟩ hrest
      have hstable := foldl_ups_stable rest (cacheSet c p.1 p.2) k
        (fun q hq hqk => hrest ⟨q, hq, hqk⟩)
      refine ⟨p.2, ?_, ?_⟩
      · show (rest.foldl (fun c p => cacheSet c p.1 p.2) (cacheSet c p.1 p.2)) k = some p.2
        rw [hstable]
        unfold cacheSet
        rw [if_pos hp.symm]
      · rw [← hp]
        show (p.1, p.2) ∈ p :: rest
        rw [Prod.mk.eta]
        exact List.mem_cons_self _ _

theorem firstPass_no_missing (dict : DictMap) (segs : List Str) :
    ∀ (c : Cache) (i : Nat), (∀ s ∈ segs, (c s).isSome) →
      (firstPass dict c segs i).2.2.2 = [] := by
  induction segs with
  | nil => intro c i h; rfl
  | cons seg rest ih =>
    intro c i h
    unfold firstPass
    cases hc : c seg with
    | some cached => exact ih c (i + 1) (fun s hs => h s (List.mem_cons_of_mem _ hs))
    | none =>
      exfalso
      have hsome := h seg (List.mem_cons_self _ _)
      rw [hc] at hsome
      simp at hsome

/-- Let-free unfolding of `handleLanguageToggle`. -/
theorem handleLanguageToggle_eq (st : EngineState) (isInputChinese : Bool) :
    handleLanguageToggle st isInputChinese =
      { st with
        cache := (flipParts (!isInputChinese) (splitKD st.latestInput) st.tags).2.foldl
          (fun c p => cacheSet c p.1 p.2) st.cache,
        latestInput :=
          (flipParts (!isInputChinese) (splitKD st.latestInput) st.tags).1.flatten } := rfl

/-- Claim C7 (amended): when every tag is settled with the requested display
form available and its target string is nonempty, trim-stable and
delimiter-free (and the tag list is in sync with the text), flipping the
display language replaces each tag's slot by its target string, pre-populates
the session cache under each target string with the tag's data and `raw`
rewritten, and the next resolution pass sends nothing to the External
Resolution Service. -/
theorem c7_language_flip_zero_latency (st : EngineState) (isInputChinese : Bool)
    (hgood : ∀ t ∈ st.tags, goodTag (!isInputChinese) t)
    (hcount : nbCount (splitKD st.latestInput) = st.tags.length) :
    splitInputToSegments (handleLanguageToggle st isInputChinese).latestInput =
      st.tags.map (targetOf (!isInputChinese)) ∧
    (∀ t ∈ st.tags, ∃ v,
      (handleLanguageToggle st isInputChinese).cache (targetOf (!isInputChinese) t) =
        some v ∧
      v.raw = targetOf (!isInputChinese) t ∧
      ∃ t2 ∈ st.tags,
        targetOf (!isInputChinese) t2 = targetOf (!isInputChinese) t ∧
        v = { t2 with raw := targetOf (!isInputChinese) t }) ∧
    (startPass (handleLanguageToggle st isInputChinese)
      (handleLanguageToggle st isInputChinese).latestInput).2.uniqueMissing = [] := by
  obtain ⟨ha1, ha2, ha3⟩ := flipParts_full (!isInputChinese) (splitKD st.latestInput)
    (altTD_splitKD st.latestInput) st.tags hgood hcount
  have hseg : splitInputToSegments (handleLanguageToggle st isInputChinese).latestInput =
      st.tags.map (targetOf (!isInputChinese)) := by
    rw [handleLanguageToggle_eq]
    show splitInputToSegments
      (flipParts (!isInputChinese) (splitKD st.latestInput) st.tags).1.flatten = _
    rw [segs_join_alt _ ha1, ha2]
  have hcache : ∀ t ∈ st.tags, ∃ v,
      (handleLanguageToggle st isInputChinese).cache (targetOf (!isInputChinese) t) =
        some v ∧
      v.raw = targetOf (!isInputChinese) t ∧
      ∃ t2 ∈ st.tags,
        targetOf (!isInputChinese) t2 = targetOf (!isInputChinese) t ∧
        v = { t2 with raw := targetOf (!isInputChinese) t } := by
    intro t htm
    have hkey : ∃ q ∈ (flipParts (!isInputChinese) (splitKD st.latestInput) st.tags).2,
        q.1 = targetOf (!isInputChinese) t := by
      rw [ha3]
      exact ⟨(targetOf (!isInputChinese) t,
        { t with raw := targetOf (!isInputChinese) t }),
        List.mem_map_of_mem _ htm, rfl⟩
    obtain ⟨v, hv, hvm⟩ := foldl_ups_find _ st.cache _ hkey
    rw [ha3, List.mem_map] at hvm
    obtain ⟨t2, ht2, ht2eq⟩ := hvm
    have h1 : targetOf (!isInputChinese) t2 = targetOf (!isInputChinese) t :=
      congrArg Prod.fst ht2eq
    have hsnd : ({ t2 with raw := targetOf (!isInputChinese) t2 } : Tag) = v :=
      congrArg Prod.snd ht2eq
    have h2 : v = { t2 with raw := targetOf (!isInputChinese) t } := by
      rw [← hsnd, h1]
    refine ⟨v, hv, ?_, t2, ht2, h1, h2⟩
    rw [h2]
  refine ⟨hseg, hcache, ?_⟩
  have hall : ∀ s ∈ splitInputToSegments
      (handleLanguageToggle st isInputChinese).latestInput,
      ((handleLanguageToggle st isInputChinese).cache s).isSome := by
    intro s hs
    rw [hseg, List.mem_map] at hs
    obtain ⟨t, htm, rfl⟩ := hs
    obtain ⟨v, hv, _⟩ := hcache t htm
    rw [hv]
    rfl
  rw [startPass_eq]
  by_cases hse : (splitInputToSegments
      (handleLanguageToggle st isInputChinese).latestInput).isEmpty = true
  · rw [if_pos hse]
  · rw [if_neg hse]
    show dedupFirst (firstPass (handleLanguageToggle st isInputChinese).dict
      (diffHygiene (handleLanguageToggle st isInputChinese).cache
        (handleLanguageToggle st isInputChinese).prevTags
        (splitInputToSegments (handleLanguageToggle st isInputChinese).latestInput))
      (splitInputToSegments (handleLanguageToggle st isInputChinese).latestInput)
      0).2.2.2 = []
    rw [firstPass_no_missing _ _ _ 0
      (fun s hs => diffHygiene_isSome _ _ _ _ (hall s hs))]
    rfl

/-- A concrete tag whose Chinese form contains a CJK comma delimiter. -/
def c7Tag : Tag :=
  { raw := "girl".data, originalText := "girl".data, englishText := "girl".data,
    translation := "女，孩".data, category := "角色特征".data,
    syntaxType := SyntaxType.NORMAL }

/-- A settled engine state holding `c7Tag`, its literal cached. -/
def c7State : EngineState :=
  { latestInput := "girl".data
    tags := [c7Tag]
    prevTags := [c7Tag]
    cache := cacheSet (fun _ => none) ("girl".data) c7Tag
    dict := fun _ => none }

/-- Counterexample to claim C7 as stated: a settled tag whose requested
display form contains a delimiter (here the CJK comma). The flip rewrites the
input text to that form, but the next pass re-segments it into two pieces
that match no cache entry, so the External Resolution Service IS called:
the flip is not zero-latency for this tag. -/
theorem c7_counterexample_delimiter_in_translation :
    c7Tag.isRefreshing = false ∧ canFlip true c7Tag = true ∧
    (handleLanguageToggle c7State false).latestInput = "女，孩".data ∧
    splitInputToSegments (handleLanguageToggle c7State false).latestInput ≠
      [targetOf true c7Tag] ∧
    (startPass (handleLanguageToggle c7State false)
      (handleLanguageToggle c7State false).latestInput).2.uniqueMissing =
      ["女".data, "孩".data] := by decide

/-- A concrete tag satisfying the amended C7 provisos (delimiter-free,
trim-stable, nonempty Chinese form). -/
def c7GoodTag : Tag :=
  { c7Tag with translation := "女孩".data }

/-- A settled engine state holding `c7GoodTag`. -/
def c7GoodState : EngineState :=
  { c7State with
    tags := [c7GoodTag]
    prevTags := [c7GoodTag]
    cache := cacheSet (fun _ => none) ("girl".data) c7GoodTag }

/-- Witness for the amended C7 at a concrete well-formed state. -/
theorem c7_language_flip_zero_latency_witness :
    (∀ t ∈ c7GoodState.tags, goodTag (!false) t) ∧
    nbCount (splitKD c7GoodState.latestInput) = c7GoodState.tags.length ∧
    (startPass (handleLanguageToggle c7GoodState false)
      (handleLanguageToggle c7GoodState false).latestInput).2.uniqueMissing = [] :=
  ⟨by decide, by decide,
    (c7_language_flip_zero_latency c7GoodState false (by decide) (by decide)).2.2⟩
